import Mathlib

/-!
Verification of the sorting/searching library in Code_Python/Sorting.py.

The Python functions operate in place on lists indexed by integers; here a
sequence is a Lean List and each in-place loop is embedded as a pure,
structurally recursive function (loops with a data-dependent iteration count
take an explicit fuel argument; every top-level entry point supplies fuel
proved sufficient in the lemmas below, so on all inputs the Python code
terminates on, the embedding computes the same result).  Elements are any
linearly ordered type, matching the Python code's use of the comparison
operators on list elements.  Out-of-range reads are modelled by List.getD
with the type's default element; the Python code never performs such reads
on the executions covered by the theorems.
-/

set_option linter.unusedSectionVars false
set_option maxRecDepth 8000

namespace Sorting

variable {α : Type*} [LinearOrder α] [Inhabited α]

/-- Read a list element at an index, with the default element out of range.
Mirrors the Python expression a[i] for 0 <= i. -/
def geti (l : List α) (i : ℕ) : α := l.getD i default

/-- Simultaneous swap assignment a[i], a[j] = a[j], a[i] from the Python code:
both right-hand sides are read from the original list. -/
def swapL (l : List α) (i j : ℕ) : List α :=
  (l.set i (geti l j)).set j (geti l i)

theorem geti_eq_getElem {l : List α} {i : ℕ} (h : i < l.length) :
    geti l i = l[i] := by
  simp [geti, List.getD, List.getElem?_eq_getElem h]

theorem geti_of_ge {l : List α} {i : ℕ} (h : l.length ≤ i) :
    geti l i = default := by
  simp [geti, List.getD, List.getElem?_eq_none h]

theorem length_set' (l : List α) (i : ℕ) (x : α) : (l.set i x).length = l.length :=
  List.length_set l i x

theorem length_swapL (l : List α) (i j : ℕ) : (swapL l i j).length = l.length := by
  simp [swapL]

theorem geti_set_self {l : List α} {i : ℕ} (x : α) (h : i < l.length) :
    geti (l.set i x) i = x := by
  rw [geti_eq_getElem (l := l.set i x) (by simpa using h)]
  simp

theorem geti_set_ne {l : List α} {i j : ℕ} (x : α) (h : i ≠ j) :
    geti (l.set i x) j = geti l j := by
  by_cases hj : j < l.length
  · rw [geti_eq_getElem (by simpa using hj), geti_eq_getElem hj]
    simp [List.getElem_set_ne h]
  · rw [geti_of_ge (by simpa using Nat.le_of_not_lt hj),
      geti_of_ge (Nat.le_of_not_lt hj)]

theorem set_geti_self {l : List α} {i : ℕ} (h : i < l.length) :
    l.set i (geti l i) = l := by
  apply List.ext_getElem (by simp)
  intro k hk hk'
  by_cases hki : k = i
  · subst hki
    rw [List.getElem_set_self, geti_eq_getElem hk']
  · exact List.getElem_set_ne (fun h => hki h.symm) _

theorem swapL_self {l : List α} {i : ℕ} (h : i < l.length) : swapL l i i = l := by
  rw [swapL, List.set_set, set_geti_self h]

theorem geti_swapL_fst {l : List α} {i j : ℕ} (hi : i < l.length) :
    geti (swapL l i j) i = if i = j then geti l i else geti l j := by
  by_cases hij : i = j
  · subst hij
    rw [swapL_self hi, if_pos rfl]
  · simp only [swapL, if_neg hij]
    rw [geti_set_ne _ (fun h => hij h.symm), geti_set_self _ hi]

theorem geti_swapL_snd {l : List α} {i j : ℕ} (hj : j < l.length) :
    geti (swapL l i j) j = geti l i := by
  rw [swapL, geti_set_self _ (by simpa using hj)]

theorem geti_swapL_other {l : List α} {i j k : ℕ} (hik : k ≠ i) (hjk : k ≠ j) :
    geti (swapL l i j) k = geti l k := by
  rw [swapL, geti_set_ne _ (fun h => hjk h.symm), geti_set_ne _ (fun h => hik h.symm)]

theorem count_set {l : List α} {i : ℕ} (x : α) (h : i < l.length) (y : α) :
    (l.set i x).count y + (if geti l i = y then 1 else 0) =
      l.count y + (if x = y then 1 else 0) := by
  have hs : l.set i x = l.take i ++ x :: l.drop (i + 1) := by
    rw [List.set_eq_take_append_cons_drop, if_pos h]
  have hl : l = l.take i ++ geti l i :: l.drop (i + 1) := by
    conv_lhs => rw [← List.take_append_drop i l]
    rw [List.drop_eq_getElem_cons h, geti_eq_getElem h]
  rw [hs]
  conv_rhs => rw [hl]
  simp only [List.count_append, List.count_cons]
  by_cases h1 : x = y <;> by_cases h2 : geti l i = y <;>
    simp [h1, h2, beq_iff_eq] <;> omega

theorem perm_set_set {l : List α} {i j : ℕ} (v : α) (hi : i < l.length)
    (hj : j < l.length) (hij : i ≠ j) :
    ((l.set j (geti l i)).set i v).Perm (l.set j v) := by
  rw [List.perm_iff_count]
  intro y
  have c1 := count_set (l := l) (i := j) (geti l i) hj y
  have c2 := count_set (l := l.set j (geti l i)) (i := i) v (by simpa using hi) y
  have c3 := count_set (l := l) (i := j) v hj y
  rw [geti_set_ne _ (fun h => hij h.symm)] at c2
  by_cases h1 : geti l i = y <;> by_cases h2 : geti l j = y <;> by_cases h3 : v = y <;>
    simp only [h1, h2, h3, if_pos, if_neg, if_true, if_false] at c1 c2 c3 ⊢ <;> omega

theorem swapL_perm {l : List α} {i j : ℕ} (hi : i < l.length) (hj : j < l.length) :
    (swapL l i j).Perm l := by
  by_cases hij : i = j
  · subst hij
    rw [swapL_self hi]
  · have h := perm_set_set (l := l) (i := j) (j := i) (geti l i) hj hi
      (fun hc => hij hc.symm)
    rw [set_geti_self hi] at h
    exact h

/-- Tail-sortedness invariant used by the bubble and selection sorts: every
pair of positions whose larger index is at least m is correctly ordered.
SortedFrom l 0 (or 1) is full sortedness; SortedFrom l l.length is trivial. -/
def SortedFrom (l : List α) (m : ℕ) : Prop :=
  ∀ i j, i < j → j < l.length → m ≤ j → geti l i ≤ geti l j

theorem sorted_iff_geti {l : List α} :
    l.Sorted (· ≤ ·) ↔ ∀ i j, i < j → j < l.length → geti l i ≤ geti l j := by
  rw [List.Sorted, List.pairwise_iff_getElem]
  constructor
  · intro h i j hij hj
    rw [geti_eq_getElem (lt_trans hij hj), geti_eq_getElem hj]
    exact h i j (lt_trans hij hj) hj hij
  · intro h i j hi hj hij
    have := h i j hij hj
    rwa [geti_eq_getElem hi, geti_eq_getElem hj] at this

theorem sortedFrom_length (l : List α) : SortedFrom l l.length :=
  fun _ j hij hj hm => absurd hj (not_lt.mpr hm)

theorem sorted_of_sortedFrom_one {l : List α} (h : SortedFrom l 1) :
    l.Sorted (· ≤ ·) := by
  rw [sorted_iff_geti]
  intro i j hij hj
  exact h i j hij hj (Nat.one_le_iff_ne_zero.mpr (by omega))

theorem sorted_geti_mono {l : List α} (h : l.Sorted (· ≤ ·)) {i j : ℕ}
    (hij : i ≤ j) (hj : j < l.length) : geti l i ≤ geti l j := by
  rcases Nat.lt_or_ge i j with hlt | hge
  · exact (sorted_iff_geti.mp h) i j hlt hj
  · have : i = j := le_antisymm hij hge
    subst this
    exact le_refl _

/-- Chain of adjacent comparisons gives pairwise order on an initial segment. -/
theorem geti_le_of_adjacent {l : List α} {n : ℕ}
    (h : ∀ k, k < n → geti l k ≤ geti l (k + 1)) :
    ∀ i j, i ≤ j → j ≤ n → geti l i ≤ geti l j := by
  intro i j hij hj
  induction j with
  | zero => simp [Nat.le_zero.mp hij]
  | succ m ih =>
    rcases Nat.lt_or_ge i (m + 1) with hlt | hge
    · exact le_trans (ih (by omega) (by omega)) (h m (by omega))
    · have : i = m + 1 := by omega
      subst this
      exact le_refl _

theorem ext_geti {a b : List α} (hlen : a.length = b.length)
    (h : ∀ i, i < a.length → geti a i = geti b i) : a = b := by
  apply List.ext_getElem hlen
  intro i h1 h2
  have := h i h1
  rwa [geti_eq_getElem h1, geti_eq_getElem h2] at this

theorem drop_eq_of_geti_eq {a b : List α} (hlen : a.length = b.length) (m : ℕ)
    (h : ∀ i, m ≤ i → i < a.length → geti a i = geti b i) :
    a.drop m = b.drop m := by
  apply ext_geti (by simp [hlen])
  intro i hi
  simp only [List.length_drop] at hi
  have h1 : m + i < a.length := by omega
  have h2 : m + i < b.length := by omega
  rw [geti_eq_getElem (l := a.drop m) (by simp; omega),
    geti_eq_getElem (l := b.drop m) (by simp; omega)]
  rw [List.getElem_drop, List.getElem_drop]
  have := h (m + i) (by omega) h1
  rwa [geti_eq_getElem h1, geti_eq_getElem h2] at this

theorem take_perm_of_perm {a b : List α} (hp : a.Perm b) (m : ℕ)
    (h : ∀ i, m ≤ i → i < a.length → geti a i = geti b i) :
    (a.take m).Perm (b.take m) := by
  have hd : a.drop m = b.drop m := drop_eq_of_geti_eq hp.length_eq m h
  have h1 : (a.take m ++ a.drop m).Perm (b.take m ++ a.drop m) := by
    rw [List.take_append_drop, hd, List.take_append_drop]
    exact hp
  exact (List.perm_append_right_iff _).mp h1

/-- Inclusive slice of positions s..e, as a list. -/
def sliceI (l : List α) (s e : ℕ) : List α := (l.drop s).take (e + 1 - s)

theorem length_sliceI {l : List α} {s e : ℕ} (hs : s ≤ e) (he : e < l.length) :
    (sliceI l s e).length = e + 1 - s := by
  simp [sliceI]
  omega

theorem geti_sliceI {l : List α} {s e t : ℕ} (ht : t ≤ e - s) (hs : s ≤ e)
    (he : e < l.length) : geti (sliceI l s e) t = geti l (s + t) := by
  rw [geti_eq_getElem (l := sliceI l s e) (by rw [length_sliceI hs he]; omega),
    geti_eq_getElem (l := l) (by omega)]
  simp only [sliceI, List.getElem_take, List.getElem_drop]

theorem mem_sliceI_iff {l : List α} {s e : ℕ} (hs : s ≤ e) (he : e < l.length)
    {x : α} : x ∈ sliceI l s e ↔ ∃ t, t ≤ e - s ∧ x = geti l (s + t) := by
  constructor
  · intro hx
    obtain ⟨t, ht, hxe⟩ := List.getElem_of_mem hx
    rw [length_sliceI hs he] at ht
    refine ⟨t, by omega, ?_⟩
    rw [← geti_sliceI (by omega) hs he] at *
    rw [← hxe, geti_eq_getElem (by rw [length_sliceI hs he]; omega)]
  · rintro ⟨t, ht, rfl⟩
    rw [← geti_sliceI ht hs he, geti_eq_getElem (by rw [length_sliceI hs he]; omega)]
    exact List.getElem_mem _

theorem sliceI_eq_decomp {l : List α} {s e : ℕ} (hs : s ≤ e) (he : e < l.length) :
    l = l.take s ++ sliceI l s e ++ l.drop (e + 1) := by
  rw [sliceI]
  have h1 : (l.drop s).take (e + 1 - s) ++ (l.drop s).drop (e + 1 - s) = l.drop s :=
    List.take_append_drop _ _
  have h2 : (l.drop s).drop (e + 1 - s) = l.drop (e + 1) := by
    rw [List.drop_drop]
    congr 1
    omega
  rw [List.append_assoc, ← h2, h1, List.take_append_drop]

theorem sliceI_perm {a b : List α} (hp : a.Perm b) {s e : ℕ} (hs : s ≤ e)
    (he : e < a.length)
    (hlow : ∀ i, i < s → geti a i = geti b i)
    (hhigh : ∀ i, e < i → i < a.length → geti a i = geti b i) :
    (sliceI a s e).Perm (sliceI b s e) := by
  have hlen := hp.length_eq
  have hd : a.drop (e + 1) = b.drop (e + 1) :=
    drop_eq_of_geti_eq hlen (e + 1) (fun i hi hia => hhigh i (by omega) hia)
  have ht : a.take s = b.take s := by
    apply ext_geti (by simp [hlen])
    intro i hi
    simp only [List.length_take] at hi
    have his : i < s := by omega
    rw [geti_eq_getElem (l := a.take s) (by simp; omega),
      geti_eq_getElem (l := b.take s) (by simp [← hlen]; omega)]
    simp only [List.getElem_take]
    have := hlow i his
    rwa [geti_eq_getElem (by omega), geti_eq_getElem (by omega)] at this
  have hda := sliceI_eq_decomp hs he
  have hdb := sliceI_eq_decomp (l := b) hs (by omega)
  rw [hda, hdb, ht, hd] at hp
  have h1 := (List.perm_append_right_iff _).mp hp
  exact (List.perm_append_left_iff _).mp h1

theorem geti_mem_take {l : List α} {i m : ℕ} (him : i < m) (hil : i < l.length) :
    geti l i ∈ l.take m := by
  have hlt : i < (l.take m).length := by simp; omega
  have heq : (l.take m)[i] = l[i] := List.getElem_take _
  rw [geti_eq_getElem hil, ← heq]
  exact List.getElem_mem _

theorem exists_geti_of_mem_take {l : List α} {m : ℕ} {x : α} (h : x ∈ l.take m) :
    ∃ k, k < m ∧ k < l.length ∧ x = geti l k := by
  obtain ⟨k, hk, hke⟩ := List.getElem_of_mem h
  simp only [List.length_take, lt_min_iff] at hk
  refine ⟨k, hk.1, hk.2, ?_⟩
  rw [geti_eq_getElem hk.2, ← hke]
  exact List.getElem_take _

/-! Bubble sort (bubble_sort in Sorting.py). -/

/-- Body of the inner loop of bubble_sort: if a[i] > a[i+1], swap them. -/
def bubStep (a : List α) (i : ℕ) : List α :=
  if geti a (i + 1) < geti a i then swapL a i (i + 1) else a

/-- Inner loop for i in range(n_pass): c counts the remaining iterations, so
bPassGo a i c performs the compare-and-swap at i, i+1, ..., i+c-1. -/
def bPassGo : List α → ℕ → ℕ → List α
  | a, _, 0 => a
  | a, i, c + 1 => bPassGo (bubStep a i) (i + 1) c

/-- One pass of bubble_sort with pass bound n (the value of n_pass). -/
def bPass (a : List α) (n : ℕ) : List α := bPassGo a 0 n

/-- Outer loop for n_pass in range(len(a)-1, 0, -1) of bubble_sort. -/
def bubGo : List α → ℕ → List α
  | a, 0 => a
  | a, n + 1 => bubGo (bPass a (n + 1)) n

/-- Embedding of bubble_sort from Sorting.py. -/
def bubble_sort (a : List α) : List α := bubGo a (a.length - 1)

theorem length_bubStep (a : List α) (i : ℕ) : (bubStep a i).length = a.length := by
  unfold bubStep
  split <;> simp [length_swapL]

theorem length_bPassGo : ∀ (c : ℕ) (a : List α) (i : ℕ),
    (bPassGo a i c).length = a.length := by
  intro c
  induction c with
  | zero => intro a i; rfl
  | succ c ih => intro a i; rw [bPassGo, ih, length_bubStep]

theorem geti_bubStep_other {a : List α} {i k : ℕ} (h : k ≠ i ∧ k ≠ i + 1) :
    geti (bubStep a i) k = geti a k := by
  unfold bubStep
  split
  · exact geti_swapL_other h.1 h.2
  · rfl

theorem bPassGo_untouched : ∀ (c : ℕ) (a : List α) (i k : ℕ),
    (k < i ∨ i + c < k) → geti (bPassGo a i c) k = geti a k := by
  intro c
  induction c with
  | zero => intro a i k _; rfl
  | succ c ih =>
    intro a i k hk
    rw [bPassGo, ih _ _ _ (by omega), geti_bubStep_other (by omega)]

theorem bPassGo_perm : ∀ (c : ℕ) (a : List α) (i : ℕ), i + c < a.length →
    (bPassGo a i c).Perm a := by
  intro c
  induction c with
  | zero => intro a i _; exact List.Perm.refl _
  | succ c ih =>
    intro a i h
    rw [bPassGo]
    refine (ih _ _ (by rw [length_bubStep]; omega)).trans ?_
    unfold bubStep
    split
    · exact swapL_perm (by omega) (by omega)
    · exact List.Perm.refl _

theorem bPassGo_max : ∀ (c : ℕ) (a : List α) (i : ℕ), i + c < a.length →
    (∀ k, k ≤ i → geti a k ≤ geti a i) →
    ∀ k, k ≤ i + c → geti (bPassGo a i c) k ≤ geti (bPassGo a i c) (i + c) := by
  intro c
  induction c with
  | zero => intro a i _ hmax k hk; exact hmax k hk
  | succ c ih =>
    intro a i h hmax k hk
    rw [bPassGo]
    have hstep : ∀ k, k ≤ i + 1 → geti (bubStep a i) k ≤ geti (bubStep a i) (i + 1) := by
      intro k hk1
      unfold bubStep
      split
      · rename_i hlt
        rw [geti_swapL_snd (by omega)]
        rcases Nat.lt_or_ge k (i + 1) with hki | hki
        · rcases Nat.lt_or_ge k i with hki' | hki'
          · rw [geti_swapL_other (by omega) (by omega)]
            exact hmax k (by omega)
          · have : k = i := by omega
            subst this
            rw [geti_swapL_fst (by omega), if_neg (by omega)]
            exact le_of_lt hlt
        · have : k = i + 1 := by omega
          subst this
          rw [geti_swapL_snd (by omega)]
      · rename_i hge
        rcases Nat.lt_or_ge k (i + 1) with hki | hki
        · exact le_trans (hmax k (by omega)) (le_of_not_lt hge)
        · have : k = i + 1 := by omega
          subst this
          exact le_refl _
    have := ih (bubStep a i) (i + 1) (by rw [length_bubStep]; omega) hstep k (by omega)
    have harith : i + 1 + c = i + (c + 1) := by omega
    rwa [harith] at this

theorem length_bPass (a : List α) (n : ℕ) : (bPass a n).length = a.length :=
  length_bPassGo n a 0

theorem bPass_untouched {a : List α} {n k : ℕ} (h : n < k) :
    geti (bPass a n) k = geti a k :=
  bPassGo_untouched n a 0 k (Or.inr (by omega))

theorem bPass_max {a : List α} {n : ℕ} (hn : n < a.length) :
    ∀ k, k ≤ n → geti (bPass a n) k ≤ geti (bPass a n) n := by
  intro k hk
  have h := bPassGo_max n a 0 (by omega)
    (fun k' hk' => by
      have hz : k' = 0 := Nat.le_zero.mp hk'
      subst hz
      exact le_refl _) k (by omega)
  rwa [Nat.zero_add] at h

theorem bPass_sortedFrom {a : List α} {n : ℕ} (hn : n < a.length)
    (hsf : SortedFrom a (n + 1)) :
    SortedFrom (bPass a n) n ∧ (bPass a n).Perm a := by
  have hperm : (bPass a n).Perm a := bPassGo_perm n a 0 (by omega)
  refine ⟨?_, hperm⟩
  intro i j hij hj hnj
  rw [length_bPass] at hj
  have hlen : (bPass a n).length = a.length := length_bPass a n
  rcases Nat.lt_or_ge j (n + 1) with hjn | hjn
  · have hjeq : j = n := by omega
    rw [hjeq]
    exact bPass_max hn i (by omega)
  · rw [bPass_untouched (k := j) (by omega)]
    rcases Nat.lt_or_ge n i with hni | hni
    · rw [bPass_untouched (k := i) (by omega)]
      exact hsf i j hij hj hjn
    · have htp : ((bPass a n).take (n + 1)).Perm (a.take (n + 1)) :=
        take_perm_of_perm hperm (n + 1)
          (fun k hk hka => bPass_untouched (k := k) (by omega))
      have hmem : geti (bPass a n) i ∈ (bPass a n).take (n + 1) :=
        geti_mem_take (l := bPass a n) (m := n + 1) (by omega) (by omega)
      have hmem2 : geti (bPass a n) i ∈ a.take (n + 1) := htp.mem_iff.mp hmem
      obtain ⟨k, hk1, hk2, hkval⟩ := exists_geti_of_mem_take hmem2
      rw [hkval]
      exact hsf k j (by omega) hj hjn

theorem bubGo_correct : ∀ (m : ℕ) (a : List α), m < a.length →
    SortedFrom a (m + 1) → (bubGo a m).Perm a ∧ (bubGo a m).Sorted (· ≤ ·) := by
  intro m
  induction m with
  | zero =>
    intro a _ hsf
    exact ⟨List.Perm.refl _, sorted_of_sortedFrom_one hsf⟩
  | succ m ih =>
    intro a hm hsf
    rw [bubGo]
    obtain ⟨hsf', hperm⟩ := bPass_sortedFrom (by omega) hsf
    have hlen : (bPass a (m + 1)).length = a.length := length_bPass a (m + 1)
    obtain ⟨hp, hs⟩ := ih (bPass a (m + 1)) (by omega) hsf'
    exact ⟨hp.trans hperm, hs⟩

theorem bubble_sort_perm (a : List α) : (bubble_sort a).Perm a := by
  unfold bubble_sort
  rcases Nat.eq_zero_or_pos a.length with h0 | hpos
  · rw [h0]
    exact List.Perm.refl _
  · exact (bubGo_correct (a.length - 1) a (by omega)
      (by have := sortedFrom_length a; rwa [show a.length - 1 + 1 = a.length by omega])).1

theorem bubble_sort_sorted (a : List α) : (bubble_sort a).Sorted (· ≤ ·) := by
  unfold bubble_sort
  rcases Nat.eq_zero_or_pos a.length with h0 | hpos
  · rw [h0]
    have : a = [] := List.length_eq_zero.mp h0
    subst this
    exact List.sorted_nil
  · exact (bubGo_correct (a.length - 1) a (by omega)
      (by have := sortedFrom_length a; rwa [show a.length - 1 + 1 = a.length by omega])).2

/-! Short bubble sort (short_bubble_sort in Sorting.py).  The Boolean in the
pass result is true when at least one swap happened, i.e. it is the negation
of the is_sorted flag of the Python code. -/

/-- Inner loop of short_bubble_sort with the swapped-something flag. -/
def sbPassGo : List α → ℕ → ℕ → Bool → List α × Bool
  | a, _, 0, f => (a, f)
  | a, i, c + 1, f =>
    if geti a (i + 1) < geti a i then sbPassGo (swapL a i (i + 1)) (i + 1) c true
    else sbPassGo a (i + 1) c f

/-- One pass of short_bubble_sort with pass bound n. -/
def sbPass (a : List α) (n : ℕ) : List α × Bool := sbPassGo a 0 n false

/-- Outer loop of short_bubble_sort: stop when a pass performed no swap. -/
def sbGo : List α → ℕ → List α
  | a, 0 => a
  | a, n + 1 =>
    if (sbPass a (n + 1)).2 then sbGo (sbPass a (n + 1)).1 n
    else (sbPass a (n + 1)).1

/-- Embedding of short_bubble_sort from Sorting.py. -/
def short_bubble_sort (a : List α) : List α := sbGo a (a.length - 1)

theorem sbPassGo_fst : ∀ (c : ℕ) (a : List α) (i : ℕ) (f : Bool),
    (sbPassGo a i c f).1 = bPassGo a i c := by
  intro c
  induction c with
  | zero => intro a i f; rfl
  | succ c ih =>
    intro a i f
    rw [sbPassGo, bPassGo, bubStep]
    split
    · rw [ih]
    · rw [ih]

theorem sbPassGo_true : ∀ (c : ℕ) (a : List α) (i : ℕ),
    (sbPassGo a i c true).2 = true := by
  intro c
  induction c with
  | zero => intro a i; rfl
  | succ c ih =>
    intro a i
    rw [sbPassGo]
    split
    · exact ih _ _
    · exact ih _ _

theorem sbPassGo_no_swap : ∀ (c : ℕ) (a : List α) (i : ℕ),
    (sbPassGo a i c false).2 = false →
    (sbPassGo a i c false).1 = a ∧ ∀ k, i ≤ k → k < i + c → geti a k ≤ geti a (k + 1) := by
  intro c
  induction c with
  | zero =>
    intro a i _
    exact ⟨rfl, fun k hk1 hk2 => absurd hk2 (by omega)⟩
  | succ c ih =>
    intro a i hflag
    rw [sbPassGo] at hflag ⊢
    split at hflag
    · rw [sbPassGo_true] at hflag
      exact absurd hflag (by simp)
    · rename_i hge
      obtain ⟨h1, h2⟩ := ih a (i + 1) hflag
      split
      · rename_i hlt
        exact absurd hlt hge
      · refine ⟨h1, fun k hk1 hk2 => ?_⟩
        rcases Nat.lt_or_ge k (i + 1) with hki | hki
        · have : k = i := by omega
          subst this
          exact le_of_not_lt hge
        · exact h2 k hki (by omega)

theorem sbGo_correct : ∀ (m : ℕ) (a : List α), m < a.length →
    SortedFrom a (m + 1) → (sbGo a m).Perm a ∧ (sbGo a m).Sorted (· ≤ ·) := by
  intro m
  induction m with
  | zero =>
    intro a _ hsf
    exact ⟨List.Perm.refl _, sorted_of_sortedFrom_one hsf⟩
  | succ m ih =>
    intro a hm hsf
    rw [sbGo]
    split
    · rename_i hflag
      have hfst : (sbPass a (m + 1)).1 = bPass a (m + 1) := sbPassGo_fst _ a 0 false
      rw [hfst]
      obtain ⟨hsf', hperm⟩ := bPass_sortedFrom (by omega) hsf
      have hlen : (bPass a (m + 1)).length = a.length := length_bPass a (m + 1)
      obtain ⟨hp, hs⟩ := ih (bPass a (m + 1)) (by omega) hsf'
      exact ⟨hp.trans hperm, hs⟩
    · rename_i hflag
      have hfalse : (sbPass a (m + 1)).2 = false := by
        revert hflag
        cases (sbPass a (m + 1)).2 <;> simp
      obtain ⟨h1, h2⟩ := sbPassGo_no_swap (m + 1) a 0 hfalse
      rw [show (sbPass a (m + 1)).1 = (sbPassGo a 0 (m + 1) false).1 from rfl, h1]
      refine ⟨List.Perm.refl _, ?_⟩
      rw [sorted_iff_geti]
      intro i j hij hj
      rcases Nat.lt_or_ge j (m + 2) with hjm | hjm
      · exact geti_le_of_adjacent (l := a) (n := m + 1)
          (fun k hk => h2 k (by omega) (by omega)) i j (by omega) (by omega)
      · exact hsf i j hij hj (by omega)

theorem short_bubble_sort_perm (a : List α) : (short_bubble_sort a).Perm a := by
  unfold short_bubble_sort
  rcases Nat.eq_zero_or_pos a.length with h0 | hpos
  · rw [h0]
    exact List.Perm.refl _
  · exact (sbGo_correct (a.length - 1) a (by omega)
      (by have := sortedFrom_length a; rwa [show a.length - 1 + 1 = a.length by omega])).1

theorem short_bubble_sort_sorted (a : List α) :
    (short_bubble_sort a).Sorted (· ≤ ·) := by
  unfold short_bubble_sort
  rcases Nat.eq_zero_or_pos a.length with h0 | hpos
  · rw [h0]
    have : a = [] := List.length_eq_zero.mp h0
    subst this
    exact List.sorted_nil
  · exact (sbGo_correct (a.length - 1) a (by omega)
      (by have := sortedFrom_length a; rwa [show a.length - 1 + 1 = a.length by omega])).2

/-! Selection sort (selection_sort in Sorting.py). -/

/-- Inner loop of selection_sort: for i in range(1, n_pass+1), remember the
index with the largest value (the strict comparison keeps the earliest one). -/
def iMaxGo : List α → ℕ → ℕ → ℕ → ℕ
  | _, acc, _, 0 => acc
  | a, acc, i, c + 1 => iMaxGo a (if geti a acc < geti a i then i else acc) (i + 1) c

/-- Index of the maximum of positions 0..n, as computed by selection_sort. -/
def iMax (a : List α) (n : ℕ) : ℕ := iMaxGo a 0 1 n

/-- One pass of selection_sort: swap the maximum of 0..n into position n. -/
def selStep (a : List α) (n : ℕ) : List α := swapL a (iMax a n) n

/-- Outer loop for n_pass in range(len(a)-1, 0, -1) of selection_sort. -/
def selGo : List α → ℕ → List α
  | a, 0 => a
  | a, n + 1 => selGo (selStep a (n + 1)) n

/-- Embedding of selection_sort from Sorting.py. -/
def selection_sort (a : List α) : List α := selGo a (a.length - 1)

theorem iMaxGo_spec : ∀ (c : ℕ) (a : List α) (acc i : ℕ), acc < i →
    (∀ k, k < i → geti a k ≤ geti a acc) →
    iMaxGo a acc i c < i + c ∧ ∀ k, k < i + c → geti a k ≤ geti a (iMaxGo a acc i c) := by
  intro c
  induction c with
  | zero =>
    intro a acc i hacc hmax
    rw [iMaxGo]
    exact ⟨by omega, fun k hk => hmax k (by omega)⟩
  | succ c ih =>
    intro a acc i hacc hmax
    rw [iMaxGo]
    have hstep : ∀ k, k < i + 1 →
        geti a k ≤ geti a (if geti a acc < geti a i then i else acc) := by
      intro k hk
      split
      · rename_i hlt
        rcases Nat.lt_or_ge k i with hki | hki
        · exact le_trans (hmax k hki) (le_of_lt hlt)
        · have : k = i := by omega
          subst this
          exact le_refl _
      · rename_i hge
        rcases Nat.lt_or_ge k i with hki | hki
        · exact hmax k hki
        · have : k = i := by omega
          subst this
          exact le_of_not_lt hge
    have hlt' : (if geti a acc < geti a i then i else acc) < i + 1 := by
      split <;> omega
    obtain ⟨h1, h2⟩ := ih a _ (i + 1) hlt' hstep
    exact ⟨by omega, fun k hk => h2 k (by omega)⟩

theorem iMax_spec (a : List α) (n : ℕ) :
    iMax a n ≤ n ∧ ∀ k, k ≤ n → geti a k ≤ geti a (iMax a n) := by
  have h := iMaxGo_spec n a 0 1 (by omega)
    (fun k hk => by
      have : k = 0 := by omega
      subst this
      exact le_refl _)
  unfold iMax
  exact ⟨by omega, fun k hk => h.2 k (by omega)⟩

theorem length_selStep (a : List α) (n : ℕ) : (selStep a n).length = a.length := by
  rw [selStep, length_swapL]

theorem selStep_untouched {a : List α} {n k : ℕ} (h : n < k) :
    geti (selStep a n) k = geti a k := by
  rw [selStep]
  exact geti_swapL_other (by have := (iMax_spec a n).1; omega) (by omega)

theorem selStep_perm {a : List α} {n : ℕ} (h : n < a.length) :
    (selStep a n).Perm a := by
  rw [selStep]
  exact swapL_perm (by have := (iMax_spec a n).1; omega) h

theorem selStep_geti_top {a : List α} {n : ℕ} (hn : n < a.length) :
    geti (selStep a n) n = geti a (iMax a n) := by
  rw [selStep]
  exact geti_swapL_snd hn

theorem selStep_sortedFrom {a : List α} {n : ℕ} (hn : n < a.length)
    (hsf : SortedFrom a (n + 1)) : SortedFrom (selStep a n) n := by
  have hspec := iMax_spec a n
  have hin : iMax a n < a.length := by omega
  intro i j hij hj hnj
  rw [length_selStep] at hj
  have hval : ∀ k, k < j → geti (selStep a n) k = geti a k ∨
      (∃ q, q ≤ n ∧ geti (selStep a n) k = geti a q) := by
    intro k hkj
    by_cases hk1 : k = iMax a n
    · subst hk1
      rw [selStep, geti_swapL_fst hin]
      split
      · exact Or.inr ⟨iMax a n, hspec.1, rfl⟩
      · exact Or.inr ⟨n, le_refl _, rfl⟩
    · by_cases hk2 : k = n
      · rw [hk2, selStep, geti_swapL_snd hn]
        exact Or.inr ⟨iMax a n, hspec.1, rfl⟩
      · rw [selStep, geti_swapL_other hk1 hk2]
        exact Or.inl rfl
  rcases Nat.lt_or_ge j (n + 1) with hjn | hjn
  · have hjeq : j = n := by omega
    subst hjeq
    rw [selStep_geti_top hn]
    rcases hval i hij with hcase | ⟨q, hq, hcase⟩
    · rw [hcase]
      exact hspec.2 i (by omega)
    · rw [hcase]
      exact hspec.2 q hq
  · rw [selStep_untouched (k := j) (by omega)]
    rcases hval i hij with hcase | ⟨q, hq, hcase⟩
    · rw [hcase]
      exact hsf i j hij hj hjn
    · rw [hcase]
      exact hsf q j (by omega) hj hjn

theorem selGo_correct : ∀ (m : ℕ) (a : List α), m < a.length →
    SortedFrom a (m + 1) → (selGo a m).Perm a ∧ (selGo a m).Sorted (· ≤ ·) := by
  intro m
  induction m with
  | zero =>
    intro a _ hsf
    exact ⟨List.Perm.refl _, sorted_of_sortedFrom_one hsf⟩
  | succ m ih =>
    intro a hm hsf
    rw [selGo]
    have hsf' := selStep_sortedFrom (by omega) hsf
    have hperm := selStep_perm (a := a) (n := m + 1) (by omega)
    have hlen := length_selStep a (m + 1)
    obtain ⟨hp, hs⟩ := ih (selStep a (m + 1)) (by omega) hsf'
    exact ⟨hp.trans hperm, hs⟩

theorem selection_sort_perm (a : List α) : (selection_sort a).Perm a := by
  unfold selection_sort
  rcases Nat.eq_zero_or_pos a.length with h0 | hpos
  · rw [h0]
    exact List.Perm.refl _
  · exact (selGo_correct (a.length - 1) a (by omega)
      (by have := sortedFrom_length a; rwa [show a.length - 1 + 1 = a.length by omega])).1

theorem selection_sort_sorted (a : List α) : (selection_sort a).Sorted (· ≤ ·) := by
  unfold selection_sort
  rcases Nat.eq_zero_or_pos a.length with h0 | hpos
  · rw [h0]
    have : a = [] := List.length_eq_zero.mp h0
    subst this
    exact List.sorted_nil
  · exact (selGo_correct (a.length - 1) a (by omega)
      (by have := sortedFrom_length a; rwa [show a.length - 1 + 1 = a.length by omega])).2

/-! Insertion sort (insertion_sort in Sorting.py), parameterized by start and
gap as in the source. -/

/-- Inner while loop of insertion_sort: shift the gapped predecessors that
exceed value, then insert value at the vacated slot.  Fuel bounds the number
of iterations; callers pass j+1, sufficient because j decreases by gap >= 1
per iteration.  The extra 0 < gap guard only changes behaviour where the
Python loop would not terminate (gap = 0 with a[j] > value). -/
def insInner : ℕ → List α → α → ℕ → ℕ → List α
  | 0, a, v, j, _ => a.set j v
  | f + 1, a, v, j, g =>
    if 0 < g ∧ g ≤ j ∧ v < geti a (j - g) then
      insInner f (a.set j (geti a (j - g))) v (j - g) g
    else a.set j v

/-- Outer for loop of insertion_sort over n_pass = start+gap, start+2*gap, ...
while n_pass < len(a).  Fuel bounds the iterations; callers pass len(a)+1,
sufficient for gap >= 1. -/
def insOuter : ℕ → List α → ℕ → ℕ → List α
  | 0, a, _, _ => a
  | f + 1, a, n, g =>
    if n < a.length then insOuter f (insInner (n + 1) a (geti a n) n g) (n + g) g
    else a

/-- Embedding of insertion_sort(a, start, gap) from Sorting.py. -/
def insertion_sort (a : List α) (s g : ℕ) : List α :=
  insOuter (a.length + 1) a (s + g) g

/-- Insertion into a reversed prefix: walk past strictly greater elements. -/
def insFrontGe (v : α) : List α → List α
  | [] => [v]
  | x :: t => if v < x then x :: insFrontGe v t else v :: x :: t

/-- Insertion of v into l from the right end, the net effect of the inner
loop of insertion_sort with gap 1 on the prefix before position j. -/
def insertBack (v : α) (l : List α) : List α := (insFrontGe v l.reverse).reverse

theorem insFrontGe_perm (v : α) : ∀ l : List α, (insFrontGe v l).Perm (v :: l) := by
  intro l
  induction l with
  | nil => exact List.Perm.refl _
  | cons x t ih =>
    rw [insFrontGe]
    split
    · exact (ih.cons x).trans (List.Perm.swap v x t)
    · exact List.Perm.refl _

theorem insFrontGe_pairwise_ge (v : α) :
    ∀ l : List α, l.Pairwise (· ≥ ·) → (insFrontGe v l).Pairwise (· ≥ ·) := by
  intro l
  induction l with
  | nil =>
    intro _
    simp [insFrontGe]
  | cons x t ih =>
    intro hp
    have hp' := hp
    rw [List.pairwise_cons] at hp'
    rw [insFrontGe]
    split
    · rename_i hvx
      rw [List.pairwise_cons]
      refine ⟨fun y hy => ?_, ih hp'.2⟩
      have hy' : y ∈ v :: t := (insFrontGe_perm v t).mem_iff.mp hy
      rcases List.mem_cons.mp hy' with hyv | hyt
      · subst hyv
        exact le_of_lt hvx
      · exact hp'.1 y hyt
    · rename_i hge
      rw [List.pairwise_cons]
      refine ⟨fun y hy => ?_, hp⟩
      rcases List.mem_cons.mp hy with hyx | hyt
      · subst hyx
        exact le_of_not_lt hge
      · exact le_trans (hp'.1 y hyt) (le_of_not_lt hge)

theorem insertBack_perm (v : α) (l : List α) : (insertBack v l).Perm (v :: l) := by
  rw [insertBack]
  refine ((insFrontGe v l.reverse).reverse_perm.trans (insFrontGe_perm v l.reverse)).trans ?_
  exact (l.reverse_perm).cons v

theorem length_insertBack (v : α) (l : List α) :
    (insertBack v l).length = l.length + 1 := by
  have := (insertBack_perm v l).length_eq
  simpa using this

theorem insertBack_sorted {v : α} {l : List α} (h : l.Sorted (· ≤ ·)) :
    (insertBack v l).Sorted (· ≤ ·) := by
  rw [insertBack, List.Sorted]
  rw [List.pairwise_reverse]
  have hrev : l.reverse.Pairwise (· ≥ ·) := by
    rw [List.pairwise_reverse]
    exact h
  have := insFrontGe_pairwise_ge v l.reverse hrev
  exact this

theorem geti_take {l : List α} {m k : ℕ} (hk : k < m) :
    geti (l.take m) k = geti l k := by
  by_cases hkl : k < l.length
  · rw [geti_eq_getElem (l := l.take m) (by simp; omega), geti_eq_getElem hkl]
    exact List.getElem_take _
  · rw [geti_of_ge (l := l.take m) (by simp; omega),
      geti_of_ge (l := l) (by omega)]

theorem take_set_of_le {l : List α} {j m : ℕ} (x : α) (h : m ≤ j) :
    (l.set j x).take m = l.take m := by
  apply ext_geti (by simp)
  intro i hi
  simp only [List.length_take, List.length_set] at hi
  rw [geti_take (by omega), geti_take (by omega), geti_set_ne _ (by omega)]

theorem drop_set_of_lt {l : List α} {j m : ℕ} (x : α) (h : j < m) :
    (l.set j x).drop m = l.drop m := by
  apply ext_geti (by simp)
  intro i hi
  simp only [List.length_drop, List.length_set] at hi
  rw [geti_eq_getElem (l := (l.set j x).drop m) (by simp; omega),
    geti_eq_getElem (l := l.drop m) (by simp; omega)]
  rw [List.getElem_drop, List.getElem_drop]
  exact List.getElem_set_ne (by omega) _

theorem insertBack_append_gt {v x : α} (l : List α) (h : v < x) :
    insertBack v (l ++ [x]) = insertBack v l ++ [x] := by
  rw [insertBack, insertBack, List.reverse_append]
  simp only [List.reverse_cons, List.reverse_nil, List.nil_append, List.singleton_append]
  rw [insFrontGe, if_pos h]
  simp

theorem insertBack_append_le {v x : α} (l : List α) (h : ¬ v < x) :
    insertBack v (l ++ [x]) = l ++ [x, v] := by
  rw [insertBack, List.reverse_append]
  simp only [List.reverse_cons, List.reverse_nil, List.nil_append, List.singleton_append]
  rw [insFrontGe, if_neg h]
  simp

theorem insInner_one : ∀ (f : ℕ) (a : List α) (v : α) (j : ℕ), j < f → j < a.length →
    insInner f a v j 1 = insertBack v (a.take j) ++ a.drop (j + 1) := by
  intro f
  induction f with
  | zero => intro a v j hf _; omega
  | succ f ih =>
    intro a v j hf hj
    rw [insInner]
    have htake : j ≥ 1 → a.take j = a.take (j - 1) ++ [geti a (j - 1)] := by
      intro h1
      have : j = (j - 1) + 1 := by omega
      rw [this, List.take_succ]
      congr 1
      rw [List.getElem?_eq_getElem (by omega), geti_eq_getElem (by omega)]
      rfl
    split
    · rename_i hcond
      obtain ⟨-, hgj, hlt⟩ := hcond
      have hset : j - 1 < (a.set j (geti a (j - 1))).length := by simp; omega
      rw [ih _ _ _ (by omega) (by simp; omega)]
      rw [take_set_of_le _ (by omega)]
      have hdrop : (a.set j (geti a (j - 1))).drop (j - 1 + 1) =
          geti a (j - 1) :: a.drop (j + 1) := by
        have hjj : j - 1 + 1 = j := by omega
        rw [hjj, List.drop_eq_getElem_cons (by simp; omega)]
        congr 1
        · rw [List.getElem_set_self]
        · rw [drop_set_of_lt _ (by omega)]
      rw [hdrop, htake hgj, insertBack_append_gt _ hlt]
      simp
    · rename_i hcond
      rw [List.set_eq_take_append_cons_drop, if_pos hj]
      rcases Nat.eq_zero_or_pos j with hj0 | hj1
      · subst hj0
        simp [insertBack, insFrontGe]
      · have hle : ¬ v < geti a (j - 1) := by
          intro hc
          exact hcond ⟨by omega, by omega, hc⟩
        rw [htake hj1, insertBack_append_le _ hle]
        simp

theorem insInner_perm : ∀ (f : ℕ) (a : List α) (v : α) (j g : ℕ), j < a.length → j ≤ f →
    (insInner f a v j g).Perm (a.set j v) := by
  intro f
  induction f with
  | zero => intro a v j g _ _; exact List.Perm.refl _
  | succ f ih =>
    intro a v j g hj hf
    rw [insInner]
    split
    · rename_i hcond
      obtain ⟨hg, hgj, -⟩ := hcond
      have h1 := ih (a.set j (geti a (j - g))) v (j - g) g (by simp; omega) (by omega)
      refine h1.trans ?_
      exact perm_set_set v (by omega) hj (by omega)
    · exact List.Perm.refl _

theorem sorted_take_one (a : List α) : (a.take 1).Sorted (· ≤ ·) := by
  cases a with
  | nil => simp
  | cons x t => simp

theorem insOuter_one : ∀ (f : ℕ) (a : List α) (n : ℕ), a.length ≤ f + n → 1 ≤ n →
    (a.take n).Sorted (· ≤ ·) →
    (insOuter f a n 1).Perm a ∧ (insOuter f a n 1).Sorted (· ≤ ·) := by
  intro f
  induction f with
  | zero =>
    intro a n hf _ hs
    rw [insOuter]
    rw [List.take_of_length_le (by omega)] at hs
    exact ⟨List.Perm.refl _, hs⟩
  | succ f ih =>
    intro a n hf hn hs
    rw [insOuter]
    split
    · rename_i hlen
      set v := geti a n with hv
      have hbridge := insInner_one (n + 1) a v n (by omega) hlen
      have hpermIns : (insInner (n + 1) a v n 1).Perm a := by
        have h1 := insInner_perm (n + 1) a v n 1 hlen (by omega)
        rwa [hv, set_geti_self hlen] at h1
      have hlenIns : (insInner (n + 1) a v n 1).length = a.length := hpermIns.length_eq
      have htake : (insInner (n + 1) a v n 1).take (n + 1) = insertBack v (a.take n) := by
        rw [hbridge]
        have hlb : (insertBack v (a.take n)).length = n + 1 := by
          rw [length_insertBack, List.length_take]
          omega
        rw [← hlb, List.take_left]
      have hsorted' : ((insInner (n + 1) a v n 1).take (n + 1)).Sorted (· ≤ ·) := by
        rw [htake]
        exact insertBack_sorted hs
      obtain ⟨hp, hsort⟩ := ih (insInner (n + 1) a v n 1) (n + 1)
        (by omega) (by omega) hsorted'
      exact ⟨hp.trans hpermIns, hsort⟩
    · rename_i hlen
      rw [List.take_of_length_le (by omega)] at hs
      exact ⟨List.Perm.refl _, hs⟩

theorem insOuter_perm : ∀ (f : ℕ) (a : List α) (n g : ℕ), 0 < g → a.length ≤ f + n →
    (insOuter f a n g).Perm a := by
  intro f
  induction f with
  | zero => intro a n g _ _; rw [insOuter]
  | succ f ih =>
    intro a n g hg hf
    rw [insOuter]
    split
    · rename_i hlen
      have hpermIns : (insInner (n + 1) a (geti a n) n g).Perm a := by
        have h1 := insInner_perm (n + 1) a (geti a n) n g hlen (by omega)
        rwa [set_geti_self hlen] at h1
      have hlenIns := hpermIns.length_eq
      exact (ih _ (n + g) g hg (by omega)).trans hpermIns
    · exact List.Perm.refl _

theorem insertion_sort_one_perm (a : List α) : (insertion_sort a 0 1).Perm a := by
  rw [insertion_sort]
  exact (insOuter_one (a.length + 1) a (0 + 1) (by omega) (by omega)
    (by rw [show (0 + 1) = 1 by rfl]; exact sorted_take_one a)).1

theorem insertion_sort_one_sorted (a : List α) :
    (insertion_sort a 0 1).Sorted (· ≤ ·) := by
  rw [insertion_sort]
  exact (insOuter_one (a.length + 1) a (0 + 1) (by omega) (by omega)
    (by rw [show (0 + 1) = 1 by rfl]; exact sorted_take_one a)).2

theorem insertion_sort_perm (a : List α) (s g : ℕ) (hg : 0 < g) :
    (insertion_sort a s g).Perm a := by
  rw [insertion_sort]
  exact insOuter_perm (a.length + 1) a (s + g) g hg (by omega)

theorem insOuter_sorted_id : ∀ (f : ℕ) (a : List α) (n : ℕ), a.Sorted (· ≤ ·) →
    1 ≤ n → insOuter f a n 1 = a := by
  intro f
  induction f with
  | zero => intro a n _ _; rw [insOuter]
  | succ f ih =>
    intro a n hs hn
    rw [insOuter]
    split
    · rename_i hlen
      have hcond : ¬ (0 < 1 ∧ 1 ≤ n ∧ geti a n < geti a (n - 1)) := by
        rintro ⟨-, h1, hlt⟩
        exact absurd hlt (not_lt.mpr (sorted_geti_mono hs (by omega) hlen))
      have hinner : insInner (n + 1) a (geti a n) n 1 = a := by
        rw [insInner, if_neg hcond, set_geti_self hlen]
      rw [hinner]
      exact ih a (n + 1) hs (by omega)
    · rfl

theorem insertion_sort_sorted_id {a : List α} (h : a.Sorted (· ≤ ·)) :
    insertion_sort a 0 1 = a := by
  rw [insertion_sort]
  exact insOuter_sorted_id (a.length + 1) a (0 + 1) h (by omega)

/-! Shell sort (shell_sort in Sorting.py). -/

/-- Loop for i in range(n_lists+1) of shell_sort: run insertion_sort with
start = n_lists * i and the given gap; c counts the remaining iterations. -/
def shGo : ℕ → List α → ℕ → ℕ → ℕ → List α
  | 0, a, _, _, _ => a
  | c + 1, a, nl, i, g => shGo c (insertion_sort a (nl * i) g) nl (i + 1) g

/-- Sub-list phase of shell_sort: the n_lists+1 insertion sorts with the given
gap, where n_lists = len(a) // gap.  In Python gap = 0 raises
ZeroDivisionError; here len(a) / 0 = 0 and the phase is harmless. -/
def shellPhase (a : List α) (g : ℕ) : List α :=
  shGo (a.length / g + 1) a (a.length / g) 0 g

/-- Embedding of shell_sort from Sorting.py: the sub-list phase followed by a
final insertion sort with gap 1. -/
def shell_sort (a : List α) (g : ℕ) : List α :=
  insertion_sort (shellPhase a g) 0 1

theorem shGo_perm : ∀ (c : ℕ) (a : List α) (nl i g : ℕ), 0 < g →
    (shGo c a nl i g).Perm a := by
  intro c
  induction c with
  | zero => intro a nl i g _; rw [shGo]
  | succ c ih =>
    intro a nl i g hg
    rw [shGo]
    exact (ih _ nl (i + 1) g hg).trans (insertion_sort_perm a (nl * i) g hg)

theorem shellPhase_perm (a : List α) (g : ℕ) (hg : 0 < g) :
    (shellPhase a g).Perm a := by
  rw [shellPhase]
  exact shGo_perm _ a _ 0 g hg

theorem shell_sort_sorted (a : List α) (g : ℕ) : (shell_sort a g).Sorted (· ≤ ·) := by
  rw [shell_sort]
  exact insertion_sort_one_sorted _

theorem shell_sort_perm (a : List α) (g : ℕ) (hg : 0 < g) :
    (shell_sort a g).Perm a := by
  rw [shell_sort]
  exact (insertion_sort_one_perm _).trans (shellPhase_perm a g hg)

theorem insertion_sort_id_of_ge {b : List α} {s : ℕ} (h : b.length ≤ s) :
    insertion_sort b s 1 = b := by
  rw [insertion_sort, insOuter, if_neg (by omega)]

theorem shGo_id : ∀ (c : ℕ) (b : List α) (nl i : ℕ), b.length ≤ nl * i →
    shGo c b nl i 1 = b := by
  intro c
  induction c with
  | zero => intro b nl i _; rw [shGo]
  | succ c ih =>
    intro b nl i h
    rw [shGo, insertion_sort_id_of_ge h]
    exact ih b nl (i + 1) (le_trans h (Nat.mul_le_mul_left nl (by omega)))

theorem shell_sort_one (a : List α) : shell_sort a 1 = insertion_sort a 0 1 := by
  rw [shell_sort, shellPhase]
  simp only [Nat.div_one]
  rw [shGo, Nat.mul_zero, shGo_id _ _ _ 1
    (by rw [(insertion_sort_one_perm a).length_eq, Nat.mul_one])]
  exact insertion_sort_sorted_id (insertion_sort_one_sorted a)

/-! Merge sort (merge_sort in Sorting.py).  The merge loop only uses the
element comparison operator <, abstracted as a Boolean relation blt so that
the tie-breaking behaviour is visible for arbitrary element comparisons. -/

/-- Merge loop of merge_sort: while both halves are nonempty copy the front
of the left half when left[i] < right[j], otherwise the front of the right
half; then append the leftover half.  Fuel is the total remaining length and
is supplied exactly by genMerge. -/
def genMergeF {β : Type*} (blt : β → β → Bool) : ℕ → List β → List β → List β
  | 0, l, r => l ++ r
  | _ + 1, [], r => r
  | _ + 1, x :: xs, [] => x :: xs
  | f + 1, x :: xs, y :: ys =>
    if blt x y then x :: genMergeF blt f xs (y :: ys)
    else y :: genMergeF blt f (x :: xs) ys

/-- Merge of two lists as performed by merge_sort. -/
def genMerge {β : Type*} (blt : β → β → Bool) (l r : List β) : List β :=
  genMergeF blt (l.length + r.length) l r

/-- Recursion of merge_sort: if len(a) > 1, split at len(a) // 2, sort the
copies of the halves and merge them.  Fuel bounds the recursion depth;
genMergeSort supplies len(a), which suffices since halves shrink. -/
def genMergeSortF {β : Type*} (blt : β → β → Bool) : ℕ → List β → List β
  | 0, a => a
  | f + 1, a =>
    if 1 < a.length then
      genMerge blt (genMergeSortF blt f (a.take (a.length / 2)))
        (genMergeSortF blt f (a.drop (a.length / 2)))
    else a

/-- Merge sort over an arbitrary Boolean comparison. -/
def genMergeSort {β : Type*} (blt : β → β → Bool) (a : List β) : List β :=
  genMergeSortF blt a.length a

/-- Embedding of merge_sort from Sorting.py, comparing with the element
order's strict less-than as the Python code does on numbers and strings. -/
def merge_sort (a : List α) : List α := genMergeSort (fun x y => decide (x < y)) a

theorem genMergeF_perm {β : Type*} (blt : β → β → Bool) :
    ∀ (f : ℕ) (l r : List β), l.length + r.length ≤ f →
    (genMergeF blt f l r).Perm (l ++ r) := by
  intro f
  induction f with
  | zero => intro l r _; rw [genMergeF]
  | succ f ih =>
    intro l r hf
    match l, r with
    | [], r =>
      rw [genMergeF]
      simp
    | x :: xs, [] =>
      rw [genMergeF]
      simp
    | x :: xs, y :: ys =>
      rw [genMergeF]
      split
      · exact ((ih xs (y :: ys) (by simp at hf ⊢; omega)).cons x)
      · refine ((ih (x :: xs) ys (by simp at hf ⊢; omega)).cons y).trans ?_
        exact List.perm_middle.symm

theorem genMerge_perm {β : Type*} (blt : β → β → Bool) (l r : List β) :
    (genMerge blt l r).Perm (l ++ r) :=
  genMergeF_perm blt _ l r (le_refl _)

theorem genMergeF_sorted :
    ∀ (f : ℕ) (l r : List α), l.length + r.length ≤ f →
    l.Sorted (· ≤ ·) → r.Sorted (· ≤ ·) →
    (genMergeF (fun x y => decide (x < y)) f l r).Sorted (· ≤ ·) := by
  intro f
  induction f with
  | zero =>
    intro l r hf _ _
    rw [genMergeF]
    have hl : l = [] := List.length_eq_zero.mp (by omega)
    have hr : r = [] := List.length_eq_zero.mp (by omega)
    subst hl
    subst hr
    exact List.sorted_nil
  | succ f ih =>
    intro l r hf hl hr
    match l, r with
    | [], r =>
      rw [genMergeF]
      exact hr
    | x :: xs, [] =>
      rw [genMergeF]
      exact hl
    | x :: xs, y :: ys =>
      rw [genMergeF]
      rw [List.sorted_cons] at hl hr
      split
      · rename_i hxy
        rw [decide_eq_true_iff] at hxy
        rw [List.sorted_cons]
        refine ⟨fun b hb => ?_, ih xs (y :: ys) (by simp at hf ⊢; omega) hl.2
          (List.sorted_cons.mpr hr)⟩
        have hb' : b ∈ xs ++ y :: ys :=
          (genMergeF_perm _ f xs (y :: ys) (by simp at hf ⊢; omega)).mem_iff.mp hb
        rcases List.mem_append.mp hb' with hbx | hby
        · exact hl.1 b hbx
        · rcases List.mem_cons.mp hby with hbe | hbys
          · subst hbe
            exact le_of_lt hxy
          · exact le_trans (le_of_lt hxy) (hr.1 b hbys)
      · rename_i hxy
        rw [decide_eq_true_iff] at hxy
        have hyx : y ≤ x := le_of_not_lt hxy
        rw [List.sorted_cons]
        refine ⟨fun b hb => ?_, ih (x :: xs) ys (by simp at hf ⊢; omega)
          (List.sorted_cons.mpr hl) hr.2⟩
        have hb' : b ∈ (x :: xs) ++ ys :=
          (genMergeF_perm _ f (x :: xs) ys (by simp at hf ⊢; omega)).mem_iff.mp hb
        rcases List.mem_append.mp hb' with hbx | hbys
        · rcases List.mem_cons.mp hbx with hbe | hbxs
          · subst hbe
            exact hyx
          · exact le_trans hyx (hl.1 b hbxs)
        · exact hr.1 b hbys

theorem genMergeSortF_perm {β : Type*} (blt : β → β → Bool) :
    ∀ (f : ℕ) (a : List β), a.length ≤ f → (genMergeSortF blt f a).Perm a := by
  intro f
  induction f with
  | zero => intro a _; rw [genMergeSortF]
  | succ f ih =>
    intro a hf
    rw [genMergeSortF]
    split
    · rename_i hlen
      have hm : a.length / 2 < a.length := Nat.div_lt_self (by omega) (by omega)
      have hL := ih (a.take (a.length / 2)) (by simp; omega)
      have hR := ih (a.drop (a.length / 2)) (by simp; omega)
      refine (genMerge_perm blt _ _).trans ?_
      refine (hL.append hR).trans ?_
      rw [List.take_append_drop]
    · exact List.Perm.refl _

theorem genMergeSortF_sorted :
    ∀ (f : ℕ) (a : List α), a.length ≤ f →
    (genMergeSortF (fun x y => decide (x < y)) f a).Sorted (· ≤ ·) := by
  intro f
  induction f with
  | zero =>
    intro a hf
    have : a = [] := List.length_eq_zero.mp (by omega)
    subst this
    rw [genMergeSortF]
    exact List.sorted_nil
  | succ f ih =>
    intro a hf
    rw [genMergeSortF]
    split
    · rename_i hlen
      have hm : a.length / 2 < a.length := Nat.div_lt_self (by omega) (by omega)
      have hL := ih (a.take (a.length / 2)) (by simp; omega)
      have hR := ih (a.drop (a.length / 2)) (by simp; omega)
      rw [genMerge]
      exact genMergeF_sorted _ _ _ (le_refl _) hL hR
    · rename_i hlen
      rcases a with - | ⟨x, t⟩
      · exact List.sorted_nil
      · rcases t with - | ⟨y, t'⟩
        · simp
        · simp at hlen


theorem merge_sort_perm (a : List α) : (merge_sort a).Perm a :=
  genMergeSortF_perm _ a.length a (le_refl _)

theorem merge_sort_sorted (a : List α) : (merge_sort a).Sorted (· ≤ ·) :=
  genMergeSortF_sorted a.length a (le_refl _)

/-! Heap sort adapter (heap_sort in Sorting.py).  Modelled from the spec: the
BinaryHeap collaborator comes from the external DataStructures repository and
is not among this repository's sources; per the spec (section 4.4 and the
Binary Heap collaborator contract of section 6), bulk-loading the sequence
and writing successive extractions into positions 0, 1, 2, ... produces the
ascending order of the elements.  The heap is therefore modelled as the
multiset of its elements and each get() as the removal of a minimum. -/

/-- Minimum of the nonempty list x :: t. -/
def minOf (x : α) (t : List α) : α := t.foldr min x

/-- Repeated extraction of the minimum; fuel is the number of elements,
supplied exactly by heap_sort. -/
def heapExtract : ℕ → List α → List α
  | 0, _ => []
  | _ + 1, [] => []
  | f + 1, x :: t => minOf x t :: heapExtract f ((x :: t).erase (minOf x t))

/-- Modelled from the spec: heap_sort from Sorting.py builds the BinaryHeap
from a and then fills a[0], a[1], ... with the successive heap.get()
extractions, yielding the ascending order of the elements. -/
def heap_sort (a : List α) : List α := heapExtract a.length a

theorem minOf_mem (x : α) : ∀ t : List α, minOf x t ∈ x :: t := by
  intro t
  induction t with
  | nil => simp [minOf]
  | cons y t' ih =>
    rw [minOf, List.foldr_cons]
    rcases min_choice y (t'.foldr min x) with h | h <;> rw [h]
    · simp
    · have := ih
      rw [minOf] at this
      rcases List.mem_cons.mp this with h1 | h1
      · simp [h1]
      · simp [h1]

theorem minOf_le (x : α) : ∀ (t : List α) (y : α), y ∈ x :: t → minOf x t ≤ y := by
  intro t
  induction t with
  | nil =>
    intro y hy
    rcases List.mem_cons.mp hy with h | h
    · subst h
      exact le_refl _
    · simp at h
  | cons z t' ih =>
    intro y hy
    rw [minOf, List.foldr_cons]
    have hmin : min z (t'.foldr min x) ≤ minOf x t' := by
      rw [minOf]
      exact min_le_right _ _
    rcases List.mem_cons.mp hy with h | h
    · subst h
      exact le_trans hmin (ih y (by simp))
    · rcases List.mem_cons.mp h with h1 | h1
      · subst h1
        exact min_le_left _ _
      · exact le_trans hmin (ih y (by simp [h1]))

theorem heapExtract_perm : ∀ (f : ℕ) (l : List α), l.length ≤ f →
    (heapExtract f l).Perm l := by
  intro f
  induction f with
  | zero =>
    intro l hf
    have : l = [] := List.length_eq_zero.mp (by omega)
    subst this
    rw [heapExtract]
  | succ f ih =>
    intro l hf
    match l with
    | [] => rw [heapExtract]
    | x :: t =>
      rw [heapExtract]
      have hmem := minOf_mem x t
      have hlen : ((x :: t).erase (minOf x t)).length = t.length := by
        rw [List.length_erase_of_mem hmem]
        simp
      have := ih ((x :: t).erase (minOf x t)) (by simp at hf; omega)
      exact (this.cons _).trans (List.perm_cons_erase hmem).symm

theorem heapExtract_sorted : ∀ (f : ℕ) (l : List α), l.length ≤ f →
    (heapExtract f l).Sorted (· ≤ ·) := by
  intro f
  induction f with
  | zero => intro l _; rw [heapExtract]; exact List.sorted_nil
  | succ f ih =>
    intro l hf
    match l with
    | [] =>
      rw [heapExtract]
      exact List.sorted_nil
    | x :: t =>
      rw [heapExtract]
      have hmem := minOf_mem x t
      have hlen : ((x :: t).erase (minOf x t)).length = t.length := by
        rw [List.length_erase_of_mem hmem]
        simp
      rw [List.sorted_cons]
      refine ⟨fun b hb => ?_, ih _ (by simp at hf; omega)⟩
      have hb1 : b ∈ (x :: t).erase (minOf x t) :=
        (heapExtract_perm f _ (by simp at hf; omega)).mem_iff.mp hb
      exact minOf_le x t b (List.mem_of_mem_erase hb1)

theorem heap_sort_perm (a : List α) : (heap_sort a).Perm a :=
  heapExtract_perm a.length a (le_refl _)

theorem heap_sort_sorted (a : List α) : (heap_sort a).Sorted (· ≤ ·) :=
  heapExtract_sorted a.length a (le_refl _)

/-! Reverse (reverse in Sorting.py). -/

/-- Loop of reverse: for i in range(len(a) // 2), swap a[i] and a[-1-i];
c counts the remaining iterations. -/
def revGo : List α → ℕ → ℕ → List α
  | a, _, 0 => a
  | a, i, c + 1 => revGo (swapL a i (a.length - 1 - i)) (i + 1) c

/-- Embedding of reverse from Sorting.py. -/
def reverse (a : List α) : List α := revGo a 0 (a.length / 2)

theorem length_revGo : ∀ (c : ℕ) (a : List α) (i : ℕ),
    (revGo a i c).length = a.length := by
  intro c
  induction c with
  | zero => intro a i; rfl
  | succ c ih => intro a i; rw [revGo, ih, length_swapL]

theorem revGo_spec : ∀ (c : ℕ) (a b : List α) (i : ℕ),
    a.length = b.length → i + c = b.length / 2 →
    (∀ j, j < b.length → (j < i ∨ b.length - 1 - i < j) →
      geti a j = geti b (b.length - 1 - j)) →
    (∀ j, j < b.length → i ≤ j → j ≤ b.length - 1 - i → geti a j = geti b j) →
    ∀ j, j < b.length → geti (revGo a i c) j = geti b (b.length - 1 - j) := by
  intro c
  induction c with
  | zero =>
    intro a b i hlen hhalf h1 h2 j hj
    rw [revGo]
    rcases Nat.lt_or_ge j i with hji | hji
    · exact h1 j hj (Or.inl hji)
    · rcases Nat.lt_or_ge (b.length - 1 - i) j with hjh | hjh
      · exact h1 j hj (Or.inr hjh)
      · have hmid : j = b.length - 1 - j := by omega
        rw [h2 j hj hji hjh]
        rw [← hmid]
  | succ c ih =>
    intro a b i hlen hhalf h1 h2 j hj
    rw [revGo]
    have hik : i < b.length / 2 := by omega
    have hilt : i < b.length - 1 - i := by omega
    have hib : i < b.length := by omega
    have hhb : b.length - 1 - i < b.length := by omega
    have hvals : ∀ k, k < b.length →
        geti (swapL a i (a.length - 1 - i)) k =
          if k = i then geti a (b.length - 1 - i)
          else if k = b.length - 1 - i then geti a i
          else geti a k := by
      intro k hk
      have hai : a.length - 1 - i = b.length - 1 - i := by omega
      by_cases hk1 : k = i
      · subst hk1
        rw [if_pos rfl, hai, geti_swapL_fst (by omega), if_neg (by omega)]
      · rw [if_neg hk1]
        by_cases hk2 : k = b.length - 1 - i
        · rw [if_pos hk2, hk2, hai, geti_swapL_snd (by omega)]
        · rw [if_neg hk2, hai, geti_swapL_other hk1 hk2]
    refine ih (swapL a i (a.length - 1 - i)) b (i + 1)
      (by rw [length_swapL]; exact hlen) (by omega) ?_ ?_ j hj
    · intro k hk hcase
      rw [hvals k hk]
      by_cases hk1 : k = i
      · rw [if_pos hk1, hk1]
        exact h2 (b.length - 1 - i) (by omega) (by omega) (by omega)
      · rw [if_neg hk1]
        by_cases hk2 : k = b.length - 1 - i
        · rw [if_pos hk2, h2 i hib (le_refl _) (by omega), hk2]
          congr 1
          omega
        · rw [if_neg hk2]
          exact h1 k hk (by omega)
    · intro k hk hk1 hk2
      rw [hvals k hk, if_neg (by omega), if_neg (by omega)]
      exact h2 k hk (by omega) (by omega)

theorem reverse_eq (a : List α) : Sorting.reverse a = a.reverse := by
  apply ext_geti (by rw [reverse, length_revGo]; simp)
  intro j hj
  rw [reverse, length_revGo] at hj
  have h := revGo_spec (a.length / 2) a a 0 rfl (by omega)
    (fun k hk hcase => by omega)
    (fun k hk _ _ => rfl) j hj
  rw [reverse, h]
  rw [geti_eq_getElem (by omega), geti_eq_getElem (l := a.reverse) (by simp; omega)]
  rw [List.getElem_reverse]

/-! Quick sort (partition and quick_sort in Sorting.py). -/

/-- Pivot index of partition: int(fact * (end - start) + start).  For the
nonnegative values produced by 0 <= fact the Python int() truncation toward
zero coincides with the floor. -/
def pivotIdx (fact : ℚ) (s e : ℕ) : ℕ :=
  (⌊fact * ((e : ℚ) - (s : ℚ)) + (s : ℚ)⌋).toNat

/-- Left scan of partition: advance left while left <= right and
a[left] <= pivot.  Fuel bounds the iterations; callers pass right + 2. -/
def scanL : ℕ → List α → α → ℕ → ℕ → ℕ
  | 0, _, _, l, _ => l
  | f + 1, a, p, l, r => if l ≤ r ∧ geti a l ≤ p then scanL f a p (l + 1) r else l

/-- Right scan of partition: retreat right while right >= left and
a[right] >= pivot.  Fuel bounds the iterations; callers pass right + 1.
The 1 <= lo guard only changes behaviour where Python's right would become
-1, which partition never reaches since left >= start + 1 >= 1. -/
def scanR : ℕ → List α → α → ℕ → ℕ → ℕ
  | 0, _, _, _, r => r
  | f + 1, a, p, lo, r =>
    if 1 ≤ lo ∧ lo ≤ r ∧ p ≤ geti a r then scanR f a p lo (r - 1) else r

/-- Split loop of partition (the while True loop): run both scans; if the
marks crossed return the array and the right mark, otherwise swap a[left]
and a[right] and continue.  Fuel bounds the iterations; partition passes
e - s + 1, which the spec lemma proves sufficient. -/
def ploop : ℕ → List α → α → ℕ → ℕ → List α × ℕ
  | 0, a, _, _, r => (a, r)
  | f + 1, a, p, l, r =>
    if scanR (r + 1) a p (scanL (r + 2) a p l r) r < scanL (r + 2) a p l r then
      (a, scanR (r + 1) a p (scanL (r + 2) a p l r) r)
    else
      ploop f
        (swapL a (scanL (r + 2) a p l r) (scanR (r + 1) a p (scanL (r + 2) a p l r) r))
        p (scanL (r + 2) a p l r) (scanR (r + 1) a p (scanL (r + 2) a p l r) r)

/-- One partition round on a: swap the pivot into position start, then run
the split loop from (start+1, end); returns the array and the split point
(before the final swap of pivot and split point). -/
def partSplit (fact : ℚ) (a : List α) (s e : ℕ) : List α × ℕ :=
  ploop (e - s + 1) (swapL a s (pivotIdx fact s e))
    (geti (swapL a s (pivotIdx fact s e)) s) (s + 1) e

/-- Recursion of partition from Sorting.py: if start < end, split and recurse
on [start, right-1] and then on [right+1, end].  Fuel bounds the recursion
depth; the wrapper partition passes e - s + 1, which always suffices. -/
def partitionF (fact : ℚ) : ℕ → List α → ℕ → ℕ → List α
  | 0, a, _, _ => a
  | f + 1, a, s, e =>
    if s < e then
      partitionF fact f
        (partitionF fact f
          (swapL (partSplit fact a s e).1 s (partSplit fact a s e).2) s
          ((partSplit fact a s e).2 - 1))
        ((partSplit fact a s e).2 + 1) e
    else a

/-- Embedding of partition(a, start, end, fact) from Sorting.py. -/
def partition (a : List α) (s e : ℕ) (fact : ℚ) : List α :=
  partitionF fact (e - s + 1) a s e

/-- Embedding of quick_sort from Sorting.py: partition(a, 0, len(a)-1, fact).
For the empty list Python passes end = -1 and partition is a no-op, as is
this embedding with end = 0. -/
def quick_sort (a : List α) (fact : ℚ) : List α :=
  partition a 0 (a.length - 1) fact

theorem scanL_ge : ∀ (f : ℕ) (a : List α) (p : α) (l r : ℕ),
    l ≤ scanL f a p l r := by
  intro f
  induction f with
  | zero => intro a p l r; rw [scanL]
  | succ f ih =>
    intro a p l r
    rw [scanL]
    split
    · exact le_trans (by omega) (ih a p (l + 1) r)
    · exact le_refl _

theorem scanL_le : ∀ (f : ℕ) (a : List α) (p : α) (l r : ℕ),
    l ≤ r + 1 → scanL f a p l r ≤ r + 1 := by
  intro f
  induction f with
  | zero => intro a p l r h; rw [scanL]; exact h
  | succ f ih =>
    intro a p l r h
    rw [scanL]
    split
    · rename_i hc
      exact ih a p (l + 1) r (by omega)
    · exact h

theorem scanL_scanned : ∀ (f : ℕ) (a : List α) (p : α) (l r : ℕ),
    ∀ k, l ≤ k → k < scanL f a p l r → geti a k ≤ p := by
  intro f
  induction f with
  | zero =>
    intro a p l r k hk1 hk2
    rw [scanL] at hk2
    omega
  | succ f ih =>
    intro a p l r k hk1 hk2
    rw [scanL] at hk2
    split at hk2
    · rename_i hc
      rcases Nat.lt_or_ge k (l + 1) with hkl | hkl
      · have : k = l := by omega
        subst this
        exact hc.2
      · exact ih a p (l + 1) r k hkl hk2
    · omega

theorem scanL_stop : ∀ (f : ℕ) (a : List α) (p : α) (l r : ℕ),
    r + 1 ≤ f + l → scanL f a p l r ≤ r → p < geti a (scanL f a p l r) := by
  intro f
  induction f with
  | zero =>
    intro a p l r hf hle
    rw [scanL] at hle ⊢
    omega
  | succ f ih =>
    intro a p l r hf hle
    rw [scanL] at hle ⊢
    split at hle
    · rename_i hc
      rw [if_pos hc]
      exact ih a p (l + 1) r (by omega) hle
    · rename_i hc
      rw [if_neg hc]
      rcases not_and_or.mp hc with h1 | h2
      · omega
      · exact lt_of_not_le h2

theorem scanR_le : ∀ (f : ℕ) (a : List α) (p : α) (lo r : ℕ),
    scanR f a p lo r ≤ r := by
  intro f
  induction f with
  | zero => intro a p lo r; rw [scanR]
  | succ f ih =>
    intro a p lo r
    rw [scanR]
    split
    · exact le_trans (ih a p lo (r - 1)) (by omega)
    · exact le_refl _

theorem scanR_ge : ∀ (f : ℕ) (a : List α) (p : α) (lo r : ℕ),
    min (lo - 1) r ≤ scanR f a p lo r := by
  intro f
  induction f with
  | zero => intro a p lo r; rw [scanR]; omega
  | succ f ih =>
    intro a p lo r
    rw [scanR]
    split
    · rename_i hc
      exact le_trans (by omega) (ih a p lo (r - 1))
    · omega

theorem scanR_scanned : ∀ (f : ℕ) (a : List α) (p : α) (lo r : ℕ),
    ∀ k, scanR f a p lo r < k → k ≤ r → p ≤ geti a k := by
  intro f
  induction f with
  | zero =>
    intro a p lo r k hk1 hk2
    rw [scanR] at hk1
    omega
  | succ f ih =>
    intro a p lo r k hk1 hk2
    rw [scanR] at hk1
    split at hk1
    · rename_i hc
      rcases Nat.lt_or_ge (r - 1) k with hkr | hkr
      · have : k = r := by omega
        subst this
        exact hc.2.2
      · exact ih a p lo (r - 1) k hk1 hkr
    · omega

theorem scanR_stop : ∀ (f : ℕ) (a : List α) (p : α) (lo r : ℕ),
    1 ≤ lo → r < f + lo → lo ≤ scanR f a p lo r → geti a (scanR f a p lo r) < p := by
  intro f
  induction f with
  | zero =>
    intro a p lo r hlo hf hle
    rw [scanR] at hle
    omega
  | succ f ih =>
    intro a p lo r hlo hf hle
    rw [scanR] at hle ⊢
    split at hle
    · rename_i hc
      rw [if_pos hc]
      exact ih a p lo (r - 1) hlo (by omega) hle
    · rename_i hc
      rw [if_neg hc]
      rcases not_and_or.mp hc with h1 | h23
      · omega
      · rcases not_and_or.mp h23 with h2 | h3
        · omega
        · exact lt_of_not_le h3

theorem ploop_spec : ∀ (f : ℕ) (a : List α) (p : α) (l r s e : ℕ),
    s + 1 ≤ l → l ≤ r + 1 → r ≤ e → s ≤ r → e < a.length →
    r + 1 + (if p < geti a l then 1 else 0) ≤ f + l →
    (∀ k, s + 1 ≤ k → k < l → geti a k ≤ p) →
    (∀ k, r < k → k ≤ e → p ≤ geti a k) →
    (ploop f a p l r).1.length = a.length ∧
    (ploop f a p l r).1.Perm a ∧
    (∀ k, k ≤ s ∨ e < k → geti (ploop f a p l r).1 k = geti a k) ∧
    s ≤ (ploop f a p l r).2 ∧ (ploop f a p l r).2 ≤ e ∧
    (∀ k, s + 1 ≤ k → k ≤ (ploop f a p l r).2 → geti (ploop f a p l r).1 k ≤ p) ∧
    (∀ k, (ploop f a p l r).2 < k → k ≤ e → p ≤ geti (ploop f a p l r).1 k) := by
  intro f
  induction f with
  | zero =>
    intro a p l r s e hsl hlr hre hsr hel hfuel hINVL hINVR
    rw [ploop]
    have hl : l = r + 1 := by
      by_cases hpb : p < geti a l <;> simp [hpb] at hfuel <;> omega
    refine ⟨rfl, List.Perm.refl _, fun k _ => rfl, by omega, by omega, ?_, ?_⟩
    · intro k hk1 hk2
      exact hINVL k hk1 (by omega)
    · intro k hk1 hk2
      exact hINVR k hk1 hk2
  | succ f ih =>
    intro a p l r s e hsl hlr hre hsr hel hfuel hINVL hINVR
    rw [ploop]
    set l' := scanL (r + 2) a p l r with hl'def
    set r' := scanR (r + 1) a p l' r with hr'def
    have hl'ge : l ≤ l' := scanL_ge (r + 2) a p l r
    have hl'le : l' ≤ r + 1 := scanL_le (r + 2) a p l r hlr
    have hr'le : r' ≤ r := scanR_le (r + 1) a p l' r
    have hr'ge : min (l' - 1) r ≤ r' := scanR_ge (r + 1) a p l' r
    have hLs : ∀ k, l ≤ k → k < l' → geti a k ≤ p := scanL_scanned (r + 2) a p l r
    have hRs : ∀ k, r' < k → k ≤ r → p ≤ geti a k := scanR_scanned (r + 1) a p l' r
    split
    · rename_i hbreak
      refine ⟨rfl, List.Perm.refl _, fun k _ => rfl, by omega, by omega, ?_, ?_⟩
      · intro k hk1 hk2
        rcases Nat.lt_or_ge k l with hkl | hkl
        · exact hINVL k hk1 hkl
        · exact hLs k hkl (by omega)
      · intro k hk1 hk2
        rcases Nat.lt_or_ge r k with hkr | hkr
        · exact hINVR k hkr hk2
        · exact hRs k hk1 hkr
    · rename_i hnobreak
      have hli : l' ≤ r' := by omega
      have hpl' : p < geti a l' := scanL_stop (r + 2) a p l r (by omega) (by omega)
      have hpr' : geti a r' < p := scanR_stop (r + 1) a p l' r (by omega) (by omega) hli
      have hne : l' ≠ r' := by
        intro hc
        rw [hc] at hpl'
        exact absurd (hpl'.trans hpr') (lt_irrefl p)
      have hlt : l' < r' := by omega
      have hl'len : l' < a.length := by
        by_contra hcon
        have h1 : geti a l' = default := geti_of_ge (by omega)
        have h2 : geti a r' = default := geti_of_ge (by omega)
        rw [h1] at hpl'
        rw [h2] at hpr'
        exact absurd (hpl'.trans hpr') (lt_irrefl p)
      have hr'len : r' < a.length := by omega
      have hswfst : geti (swapL a l' r') l' = geti a r' := by
        rw [geti_swapL_fst hl'len, if_neg hne]
      have hswsnd : geti (swapL a l' r') r' = geti a l' := geti_swapL_snd hr'len
      have hswlen : (swapL a l' r').length = a.length := length_swapL a l' r'
      have hswperm : (swapL a l' r').Perm a := swapL_perm hl'len hr'len
      have hfuel' : r' + 1 + (if p < geti (swapL a l' r') l' then 1 else 0) ≤ f + l' := by
        rw [hswfst, if_neg (not_lt.mpr (le_of_lt hpr'))]
        rcases Nat.lt_or_ge l l' with hll | hll
        · by_cases hpb : p < geti a l <;> simp [hpb] at hfuel <;> omega
        · have hleq : l' = l := by omega
          have hpb : p < geti a l := by
            rw [← hleq]
            exact hpl'
          rw [if_pos hpb] at hfuel
          omega
      have hINVL' : ∀ k, s + 1 ≤ k → k < l' → geti (swapL a l' r') k ≤ p := by
        intro k hk1 hk2
        rw [geti_swapL_other (by omega) (by omega)]
        rcases Nat.lt_or_ge k l with hkl | hkl
        · exact hINVL k hk1 hkl
        · exact hLs k hkl hk2
      have hINVR' : ∀ k, r' < k → k ≤ e → p ≤ geti (swapL a l' r') k := by
        intro k hk1 hk2
        rw [geti_swapL_other (by omega) (by omega)]
        rcases Nat.lt_or_ge r k with hkr | hkr
        · exact hINVR k hkr hk2
        · exact hRs k hk1 hkr
      obtain ⟨c1, c2, c3, c4, c5, c6, c7⟩ := ih (swapL a l' r') p l' r' s e
        (by omega) (by omega) (by omega) (by omega) (by omega) hfuel' hINVL' hINVR'
      refine ⟨by rw [c1, hswlen], c2.trans hswperm, ?_, c4, c5, c6, c7⟩
      intro k hk
      rw [c3 k hk, geti_swapL_other (by omega) (by omega)]

theorem pivotIdx_bounds {fact : ℚ} {s e : ℕ} (h0 : 0 ≤ fact) (h1 : fact ≤ 1)
    (hse : s ≤ e) : s ≤ pivotIdx fact s e ∧ pivotIdx fact s e ≤ e := by
  have hcast : (s : ℚ) ≤ (e : ℚ) := by exact_mod_cast hse
  have hdiff : (0 : ℚ) ≤ (e : ℚ) - s := by linarith
  have hq0 : (s : ℚ) ≤ fact * ((e : ℚ) - s) + s := by
    have := mul_nonneg h0 hdiff
    linarith
  have hq1 : fact * ((e : ℚ) - s) + s ≤ (e : ℚ) := by
    have := mul_le_of_le_one_left hdiff h1
    linarith
  have hfl : (s : ℤ) ≤ ⌊fact * ((e : ℚ) - s) + s⌋ := by
    rw [Int.le_floor]
    push_cast
    exact hq0
  have hfu : ⌊fact * ((e : ℚ) - s) + s⌋ ≤ (e : ℤ) := by
    have h2 : ⌊fact * ((e : ℚ) - s) + s⌋ ≤ ⌊(e : ℚ)⌋ := Int.floor_le_floor hq1
    rwa [Int.floor_natCast] at h2
  rw [pivotIdx]
  omega

theorem partSplit_spec (a : List α) (s e : ℕ) (fact : ℚ) (h0 : 0 ≤ fact)
    (h1 : fact ≤ 1) (hse : s < e) (hel : e < a.length) :
    (partSplit fact a s e).1.length = a.length ∧
    (partSplit fact a s e).1.Perm a ∧
    (∀ k, k < s ∨ e < k → geti (partSplit fact a s e).1 k = geti a k) ∧
    geti (partSplit fact a s e).1 s = geti a (pivotIdx fact s e) ∧
    s ≤ (partSplit fact a s e).2 ∧ (partSplit fact a s e).2 ≤ e ∧
    (∀ k, s + 1 ≤ k → k ≤ (partSplit fact a s e).2 →
      geti (partSplit fact a s e).1 k ≤ geti a (pivotIdx fact s e)) ∧
    (∀ k, (partSplit fact a s e).2 < k → k ≤ e →
      geti a (pivotIdx fact s e) ≤ geti (partSplit fact a s e).1 k) := by
  obtain ⟨hib1, hib2⟩ := pivotIdx_bounds h0 h1 (le_of_lt hse)
  have hslen : s < a.length := by omega
  have hilen : pivotIdx fact s e < a.length := by omega
  have hp1 : geti (swapL a s (pivotIdx fact s e)) s = geti a (pivotIdx fact s e) := by
    rw [geti_swapL_fst hslen]
    split
    · rename_i hc
      rw [← hc]
    · rfl
  obtain ⟨c1, c2, c3, c4, c5, c6, c7⟩ := ploop_spec (e - s + 1)
    (swapL a s (pivotIdx fact s e)) (geti (swapL a s (pivotIdx fact s e)) s)
    (s + 1) e s e (by omega) (by omega) (by omega) (by omega)
    (by rw [length_swapL]; omega)
    (by split <;> omega)
    (fun k hk1 hk2 => by omega)
    (fun k hk1 hk2 => by omega)
  have hps : partSplit fact a s e = ploop (e - s + 1) (swapL a s (pivotIdx fact s e))
      (geti (swapL a s (pivotIdx fact s e)) s) (s + 1) e := rfl
  rw [hps]
  have hswlen : (swapL a s (pivotIdx fact s e)).length = a.length := length_swapL _ _ _
  have hswperm : (swapL a s (pivotIdx fact s e)).Perm a := swapL_perm hslen hilen
  refine ⟨by rw [c1, hswlen], c2.trans hswperm, ?_, ?_, c4, c5, ?_, ?_⟩
  · intro k hk
    rw [c3 k (by omega)]
    rcases hk with hk | hk
    · rw [geti_swapL_other (by omega) (by omega)]
    · rw [geti_swapL_other (by omega) (by omega)]
  · rw [c3 s (Or.inl (le_refl s)), hp1]
  · intro k hk1 hk2
    rw [← hp1]
    exact c6 k hk1 hk2
  · intro k hk1 hk2
    rw [← hp1]
    exact c7 k hk1 hk2

theorem partitionF_degenerate (fact : ℚ) : ∀ (f : ℕ) (a : List α) (s e : ℕ),
    e ≤ s → partitionF fact f a s e = a := by
  intro f
  cases f with
  | zero => intro a s e _; rw [partitionF]
  | succ f => intro a s e h; rw [partitionF, if_neg (by omega)]

theorem partitionF_spec : ∀ (f : ℕ) (a : List α) (s e : ℕ) (fact : ℚ),
    0 ≤ fact → fact ≤ 1 → e < a.length → e - s ≤ f →
    (partitionF fact f a s e).length = a.length ∧
    (partitionF fact f a s e).Perm a ∧
    (∀ k, k < s ∨ e < k → geti (partitionF fact f a s e) k = geti a k) ∧
    (∀ i j, s ≤ i → i ≤ j → j ≤ e →
      geti (partitionF fact f a s e) i ≤ geti (partitionF fact f a s e) j) := by
  intro f
  induction f with
  | zero =>
    intro a s e fact h0 h1 hel hf
    rw [partitionF]
    refine ⟨rfl, List.Perm.refl _, fun k _ => rfl, ?_⟩
    intro i j hi hij hj
    have : i = j := by omega
    rw [this]
  | succ f ih =>
    intro a s e fact h0 h1 hel hf
    rw [partitionF]
    by_cases hse : s < e
    · rw [if_pos hse]
      obtain ⟨c1, c2, c3, c4, c5, c6, c7, c8⟩ := partSplit_spec a s e fact h0 h1 hse hel
      set pr := partSplit fact a s e with hprdef
      set p := geti a (pivotIdx fact s e) with hpdef
      have hslen : s < a.length := by omega
      have hmlen : pr.2 < a.length := by omega
      have hmlen' : pr.2 < pr.1.length := by omega
      have hslen' : s < pr.1.length := by omega
      have ha3len : (swapL pr.1 s pr.2).length = a.length := by
        rw [length_swapL, c1]
      have ha3perm : (swapL pr.1 s pr.2).Perm a := (swapL_perm hslen' hmlen').trans c2
      have ha3top : geti (swapL pr.1 s pr.2) pr.2 = p := by
        rw [geti_swapL_snd hmlen', c4]
      have ha3le : ∀ k, s ≤ k → k < pr.2 → geti (swapL pr.1 s pr.2) k ≤ p := by
        intro k hk1 hk2
        by_cases hks : k = s
        · rw [hks, geti_swapL_fst hslen', if_neg (by omega)]
          exact c7 pr.2 (by omega) (le_refl _)
        · rw [geti_swapL_other hks (by omega)]
          exact c7 k (by omega) (by omega)
      have ha3ge : ∀ k, pr.2 < k → k ≤ e → p ≤ geti (swapL pr.1 s pr.2) k := by
        intro k hk1 hk2
        rw [geti_swapL_other (by omega) (by omega)]
        exact c8 k hk1 hk2
      have ha3out : ∀ k, k < s ∨ e < k → geti (swapL pr.1 s pr.2) k = geti a k := by
        intro k hk
        rw [geti_swapL_other (by omega) (by omega)]
        exact c3 k hk
      obtain ⟨d1, d2, d3, d4⟩ := ih (swapL pr.1 s pr.2) s (pr.2 - 1) fact h0 h1
        (by omega) (by omega)
      set c := partitionF fact f (swapL pr.1 s pr.2) s (pr.2 - 1) with hcdef
      have hcm_eq : ∀ k, pr.2 ≤ k → geti c k = geti (swapL pr.1 s pr.2) k := by
        intro k hk
        rcases Nat.eq_zero_or_pos pr.2 with hm0 | hmpos
        · rw [hcdef, partitionF_degenerate fact f _ s (pr.2 - 1) (by omega)]
        · exact d3 k (Or.inr (by omega))
      obtain ⟨e1, e2, e3, e4⟩ := ih c (pr.2 + 1) e fact h0 h1 (by omega) (by omega)
      set d := partitionF fact f c (pr.2 + 1) e with hddef
      have hd_eq : ∀ k, k ≤ pr.2 → geti d k = geti c k := by
        intro k hk
        exact e3 k (Or.inl (by omega))
      have hdm : geti d pr.2 = p := by
        rw [hd_eq pr.2 (le_refl _), hcm_eq pr.2 (le_refl _), ha3top]
      have hd_le : ∀ k, s ≤ k → k < pr.2 → geti d k ≤ p := by
        intro k hk1 hk2
        rw [hd_eq k (by omega)]
        have hsm : s ≤ pr.2 - 1 := by omega
        have hml : pr.2 - 1 < c.length := by omega
        have hslice : (sliceI c s (pr.2 - 1)).Perm (sliceI (swapL pr.1 s pr.2) s (pr.2 - 1)) :=
          sliceI_perm d2 hsm (by omega)
            (fun i hi => d3 i (Or.inl hi))
            (fun i hi hia => hcm_eq i (by omega))
        have hmem : geti c k ∈ sliceI c s (pr.2 - 1) := by
          rw [mem_sliceI_iff hsm (by omega)]
          exact ⟨k - s, by omega, by rw [show s + (k - s) = k by omega]⟩
        have hmem2 := hslice.mem_iff.mp hmem
        rw [mem_sliceI_iff hsm (by omega)] at hmem2
        obtain ⟨t, ht, hval⟩ := hmem2
        rw [hval]
        exact ha3le (s + t) (by omega) (by omega)
      have hd_ge : ∀ k, pr.2 < k → k ≤ e → p ≤ geti d k := by
        intro k hk1 hk2
        have hme : pr.2 + 1 ≤ e := by omega
        have hslice : (sliceI d (pr.2 + 1) e).Perm (sliceI c (pr.2 + 1) e) :=
          sliceI_perm e2 hme (by omega)
            (fun i hi => e3 i (Or.inl hi))
            (fun i hi hia => e3 i (Or.inr hi))
        have hmem : geti d k ∈ sliceI d (pr.2 + 1) e := by
          rw [mem_sliceI_iff hme (by omega)]
          exact ⟨k - (pr.2 + 1), by omega, by rw [show pr.2 + 1 + (k - (pr.2 + 1)) = k by omega]⟩
        have hmem2 := hslice.mem_iff.mp hmem
        rw [mem_sliceI_iff hme (by omega)] at hmem2
        obtain ⟨t, ht, hval⟩ := hmem2
        rw [hval, hcm_eq (pr.2 + 1 + t) (by omega)]
        exact ha3ge (pr.2 + 1 + t) (by omega) (by omega)
      refine ⟨by rw [e1, d1, ha3len], (e2.trans d2).trans ha3perm, ?_, ?_⟩
      · intro k hk
        have hk1 : geti d k = geti c k := e3 k (by omega)
        have hk2 : geti c k = geti (swapL pr.1 s pr.2) k := d3 k (by omega)
        rw [hk1, hk2]
        exact ha3out k hk
      · intro i j hi hij hj
        rcases Nat.lt_or_ge j pr.2 with hjm | hjm
        · rw [hd_eq i (by omega), hd_eq j (by omega)]
          exact d4 i j hi hij (by omega)
        · rcases Nat.lt_or_ge i pr.2 with him | him
          · rcases Nat.eq_or_lt_of_le hjm with hjeq | hjlt
            · have hdj : geti d j = p := by
                rw [← hjeq]
                exact hdm
              rw [hdj]
              exact hd_le i hi him
            · exact le_trans (hd_le i hi him) (hd_ge j hjlt hj)
          · rcases Nat.eq_or_lt_of_le him with hieq | hilt
            · have hdi : geti d i = p := by
                rw [← hieq]
                exact hdm
              rw [hdi]
              rcases Nat.eq_or_lt_of_le hij with hije | hijl
              · rw [← hije, hdi]
              · exact hd_ge j (by omega) hj
            · exact e4 i j (by omega) hij hj
    · rw [if_neg hse]
      refine ⟨rfl, List.Perm.refl _, fun k _ => rfl, ?_⟩
      intro i j hi hij hj
      have : i = j := by omega
      rw [this]

theorem quick_sort_perm (a : List α) (fact : ℚ) (h0 : 0 ≤ fact) (h1 : fact ≤ 1) :
    (quick_sort a fact).Perm a := by
  rw [quick_sort, partition]
  rcases Nat.eq_zero_or_pos a.length with hz | hp
  · rw [partitionF_degenerate fact _ a 0 (a.length - 1) (by omega)]
  · exact (partitionF_spec _ a 0 (a.length - 1) fact h0 h1 (by omega) (by omega)).2.1

theorem quick_sort_sorted (a : List α) (fact : ℚ) (h0 : 0 ≤ fact) (h1 : fact ≤ 1) :
    (quick_sort a fact).Sorted (· ≤ ·) := by
  rw [quick_sort, partition]
  rcases Nat.eq_zero_or_pos a.length with hz | hp
  · rw [partitionF_degenerate fact _ a 0 (a.length - 1) (by omega)]
    rw [List.length_eq_zero.mp hz]
    exact List.sorted_nil
  · obtain ⟨q1, -, -, q4⟩ :=
      partitionF_spec (a.length - 1 - 0 + 1) a 0 (a.length - 1) fact h0 h1
        (by omega) (by omega)
    rw [sorted_iff_geti]
    intro i j hij hj
    rw [q1] at hj
    exact q4 i j (by omega) (by omega) (by omega)

/-! Searching (binary_search and sequential_search in Sorting.py). -/

/-- Loop of binary_search over the integer marks start and end (end becomes
-1 when the value is below the first element, so the marks are integers).
Fuel bounds the iterations; binary_search passes len(a)+1, sufficient since
end - start shrinks every iteration. -/
def bsGo : ℕ → List α → α → ℤ → ℤ → Option ℕ
  | 0, _, _, _, _ => none
  | f + 1, a, v, s, e =>
    if s ≤ e then
      if geti a ((s + e) / 2).toNat = v then some ((s + e) / 2).toNat
      else
        if v < geti a ((s + e) / 2).toNat then bsGo f a v s ((s + e) / 2 - 1)
        else bsGo f a v ((s + e) / 2 + 1) e
    else none

/-- Embedding of binary_search from Sorting.py; None becomes Option.none. -/
def binary_search (a : List α) (v : α) : Option ℕ :=
  bsGo (a.length + 1) a v 0 ((a.length : ℤ) - 1)

/-- Embedding of sequential_search from Sorting.py: scan left to right and
return the first index holding the value. -/
def seqGo : List α → α → ℕ → Option ℕ
  | [], _, _ => none
  | x :: t, v, i => if x = v then some i else seqGo t v (i + 1)

/-- Embedding of sequential_search(a, value) from Sorting.py. -/
def sequential_search (a : List α) (v : α) : Option ℕ := seqGo a v 0

theorem bsGo_some : ∀ (f : ℕ) (a : List α) (v : α) (s e : ℤ), 0 ≤ s →
    e < (a.length : ℤ) → ∀ i, bsGo f a v s e = some i →
    i < a.length ∧ geti a i = v := by
  intro f
  induction f with
  | zero =>
    intro a v s e _ _ i h
    rw [bsGo] at h
    exact absurd h (by simp)
  | succ f ih =>
    intro a v s e hs he i h
    rw [bsGo] at h
    split at h
    · rename_i hle
      split at h
      · rename_i heq
        have hi : i = ((s + e) / 2).toNat := by
          have := Option.some_injective _ h
          omega
        constructor
        · omega
        · rw [hi]
          exact heq
      · split at h
        · exact ih a v s ((s + e) / 2 - 1) hs (by omega) i h
        · exact ih a v ((s + e) / 2 + 1) e (by omega) he i h
    · exact absurd h (by simp)

theorem bsGo_complete : ∀ (f : ℕ) (a : List α) (v : α) (s e : ℤ),
    a.Sorted (· ≤ ·) → 0 ≤ s → e < (a.length : ℤ) → (e + 1 - s).toNat ≤ f →
    (∃ i, i < a.length ∧ geti a i = v ∧ s ≤ (i : ℤ) ∧ (i : ℤ) ≤ e) →
    ∃ j, bsGo f a v s e = some j := by
  intro f
  induction f with
  | zero =>
    intro a v s e _ hs he hf ⟨i, hi1, hi2, hi3, hi4⟩
    omega
  | succ f ih =>
    intro a v s e hsorted hs he hf ⟨i, hi1, hi2, hi3, hi4⟩
    rw [bsGo]
    rw [if_pos (by omega)]
    split
    · exact ⟨_, rfl⟩
    · rename_i hne
      have hmid : s ≤ (s + e) / 2 ∧ (s + e) / 2 ≤ e := by omega
      have hmlen : ((s + e) / 2).toNat < a.length := by omega
      split
      · rename_i hvlt
        refine ih a v s ((s + e) / 2 - 1) hsorted hs (by omega) (by omega)
          ⟨i, hi1, hi2, hi3, ?_⟩
        by_contra hcon
        have hge : ((s + e) / 2).toNat ≤ i := by omega
        have := sorted_geti_mono hsorted hge hi1
        rw [hi2] at this
        exact absurd (lt_of_lt_of_le hvlt this) (lt_irrefl v)
      · rename_i hvge
        have hvgt : geti a ((s + e) / 2).toNat < v :=
          lt_of_le_of_ne (le_of_not_lt hvge) (fun hc => hne hc)
        refine ih a v ((s + e) / 2 + 1) e hsorted (by omega) he (by omega)
          ⟨i, hi1, hi2, ?_, hi4⟩
        by_contra hcon
        have hle : i ≤ ((s + e) / 2).toNat := by omega
        have := sorted_geti_mono hsorted hle hmlen
        rw [hi2] at this
        exact absurd (lt_of_le_of_lt this hvgt) (lt_irrefl v)

theorem binary_search_found {a : List α} {v : α} {i : ℕ}
    (h : binary_search a v = some i) : i < a.length ∧ geti a i = v :=
  bsGo_some (a.length + 1) a v 0 ((a.length : ℤ) - 1) (by omega) (by omega) i h

theorem binary_search_mem {a : List α} {v : α} (hsorted : a.Sorted (· ≤ ·))
    (hv : v ∈ a) : ∃ j, binary_search a v = some j := by
  obtain ⟨i, hi, hival⟩ := List.getElem_of_mem hv
  refine bsGo_complete (a.length + 1) a v 0 ((a.length : ℤ) - 1) hsorted
    (by omega) (by omega) (by omega) ⟨i, hi, ?_, by omega, by omega⟩
  rw [geti_eq_getElem hi]
  exact hival

theorem binary_search_none {a : List α} {v : α} (hsorted : a.Sorted (· ≤ ·))
    (hv : v ∉ a) : binary_search a v = none := by
  cases hb : binary_search a v with
  | none => rfl
  | some i =>
    obtain ⟨hi, hival⟩ := binary_search_found hb
    exact absurd (by rw [← hival, geti_eq_getElem hi]; exact List.getElem_mem _) hv

theorem seqGo_none_iff : ∀ (l : List α) (v : α) (i : ℕ),
    seqGo l v i = none ↔ v ∉ l := by
  intro l
  induction l with
  | nil => intro v i; simp [seqGo]
  | cons x t ih =>
    intro v i
    rw [seqGo]
    by_cases hx : x = v
    · rw [if_pos hx]
      constructor
      · intro hc
        exact absurd hc (by simp)
      · intro hc
        exact absurd (by rw [← hx]; exact List.mem_cons_self x t) hc
    · rw [if_neg hx, ih v (i + 1)]
      constructor
      · intro hnt hmem
        rcases List.mem_cons.mp hmem with hh | hh
        · exact hx hh.symm
        · exact hnt hh
      · intro hnc hmem
        exact hnc (List.mem_cons_of_mem x hmem)

theorem sequential_search_none_iff (a : List α) (v : α) :
    sequential_search a v = none ↔ v ∉ a :=
  seqGo_none_iff a v 0

/-! Index array (build_index in Sorting.py). -/

/-- Loop of build_index for i in range(n) with n = len(a_sorted): look up
a_original[i] in a_sorted by sequential search.  An out-of-range access to
a_original (Python IndexError) or a failed search (Python TypeError when the
returned None is stored into the integer index array) makes the whole
computation fail, modelled as Option.none; c counts remaining iterations. -/
def biGo : List α → List α → ℕ → ℕ → Option (List ℕ)
  | _, _, _, 0 => some []
  | s, o, i, c + 1 =>
    match o[i]? with
    | none => none
    | some v =>
      match sequential_search s v with
      | none => none
      | some k =>
        match biGo s o (i + 1) c with
        | none => none
        | some rest => some (k :: rest)

/-- Embedding of build_index(a_sorted, a_original) from Sorting.py: the first
pass fills idx with the sequential-search positions, and the returned array
is the numpy fancy-indexing idx[idx]. -/
def build_index (a_sorted a_original : List α) : Option (List ℕ) :=
  (biGo a_sorted a_original 0 a_sorted.length).map
    (fun idx => idx.map (fun k => idx.getD k 0))

theorem biGo_none : ∀ (c : ℕ) (s o : List α) (i : ℕ),
    (∃ t, t < c ∧ ∃ v, o[i + t]? = some v ∧ v ∉ s) → biGo s o i c = none := by
  intro c
  induction c with
  | zero =>
    intro s o i ⟨t, ht, _⟩
    omega
  | succ c ih =>
    intro s o i ⟨t, ht, v, hv, hvs⟩
    rw [biGo]
    cases ho : o[i]? with
    | none => rfl
    | some w =>
      simp only
      cases hs : sequential_search s w with
      | none => rfl
      | some k =>
        simp only
        have ht0 : t ≠ 0 := by
          intro hc
          subst hc
          rw [Nat.add_zero, ho] at hv
          have hwv : w = v := Option.some_injective _ hv
          rw [← hwv] at hvs
          have hnone := (sequential_search_none_iff s w).mpr hvs
          rw [hnone] at hs
          exact absurd hs (by simp)
        have := ih s o (i + 1) ⟨t - 1, by omega, v, by
          rw [show i + 1 + (t - 1) = i + t by omega]
          exact hv, hvs⟩
        rw [this]

/-! Dispatcher (sort in Sorting.py). -/

/-- Method dispatch of sort from Sorting.py on the copy of the input: route
to the sorter selected by name; any unrecognized name falls through to merge
sort.  With param = none the defaults gap = 1 and fact = 0 are used; an
integer shell parameter is floored from the rational model of Python
numbers. -/
def sortCore (data : List α) (method : String) (param : Option ℚ) : List α :=
  if method = "bubble" then bubble_sort data
  else if method = "short_bubble" then short_bubble_sort data
  else if method = "selection" then selection_sort data
  else if method = "insertion" then insertion_sort data 0 1
  else if method = "shell" then
    shell_sort data (match param with | none => 1 | some q => (⌊q⌋).toNat)
  else if method = "quick" then
    quick_sort data (match param with | none => 0 | some q => q)
  else if method = "heap" then heap_sort data
  else merge_sort data

/-- Embedding of sort(data, method, descending, param) from Sorting.py: sort
a copy, build the index array, and reverse both when descending. -/
def sort (data : List α) (method : String) (descending : Bool) (param : Option ℚ) :
    List α × Option (List ℕ) :=
  if descending then
    (Sorting.reverse (sortCore data method param),
      (build_index (sortCore data method param) data).map (fun l => Sorting.reverse l))
  else
    (sortCore data method param, build_index (sortCore data method param) data)

theorem sortCore_correct (data : List α) (m : String) :
    (sortCore data m none).Perm data ∧ (sortCore data m none).Sorted (· ≤ ·) := by
  rw [sortCore]
  by_cases h1 : m = "bubble"
  · rw [if_pos h1]
    exact ⟨bubble_sort_perm data, bubble_sort_sorted data⟩
  · rw [if_neg h1]
    by_cases h2 : m = "short_bubble"
    · rw [if_pos h2]
      exact ⟨short_bubble_sort_perm data, short_bubble_sort_sorted data⟩
    · rw [if_neg h2]
      by_cases h3 : m = "selection"
      · rw [if_pos h3]
        exact ⟨selection_sort_perm data, selection_sort_sorted data⟩
      · rw [if_neg h3]
        by_cases h4 : m = "insertion"
        · rw [if_pos h4]
          exact ⟨insertion_sort_one_perm data, insertion_sort_one_sorted data⟩
        · rw [if_neg h4]
          by_cases h5 : m = "shell"
          · rw [if_pos h5]
            exact ⟨shell_sort_perm data 1 (by omega), shell_sort_sorted data 1⟩
          · rw [if_neg h5]
            by_cases h6 : m = "quick"
            · rw [if_pos h6]
              exact ⟨quick_sort_perm data 0 (le_refl 0) (by norm_num),
                quick_sort_sorted data 0 (le_refl 0) (by norm_num)⟩
            · rw [if_neg h6]
              by_cases h7 : m = "heap"
              · rw [if_pos h7]
                exact ⟨heap_sort_perm data, heap_sort_sorted data⟩
              · rw [if_neg h7]
                exact ⟨merge_sort_perm data, merge_sort_sorted data⟩

theorem sorted_ge_reverse {l : List α} (h : l.Sorted (· ≤ ·)) :
    l.reverse.Sorted (· ≥ ·) := by
  rw [List.Sorted, List.pairwise_reverse]
  exact h.imp (fun hab => hab)

/-! Rational-free specialization of partition at fact = 0 (the dispatcher's
default pivot factor), used to evaluate quick_sort on concrete inputs. -/

theorem pivotIdx_zero (s e : ℕ) : pivotIdx 0 s e = s := by
  rw [pivotIdx]
  norm_num

/-- partSplit with the pivot index evaluated at fact = 0 (it is start). -/
def partSplit0 (a : List α) (s e : ℕ) : List α × ℕ :=
  ploop (e - s + 1) (swapL a s s) (geti (swapL a s s) s) (s + 1) e

/-- partitionF with the pivot index evaluated at fact = 0. -/
def partitionF0 : ℕ → List α → ℕ → ℕ → List α
  | 0, a, _, _ => a
  | f + 1, a, s, e =>
    if s < e then
      partitionF0 f
        (partitionF0 f
          (swapL (partSplit0 a s e).1 s (partSplit0 a s e).2) s
          ((partSplit0 a s e).2 - 1))
        ((partSplit0 a s e).2 + 1) e
    else a

theorem partSplit0_eq (a : List α) (s e : ℕ) : partSplit 0 a s e = partSplit0 a s e := by
  rw [partSplit, partSplit0, pivotIdx_zero]

theorem partitionF0_eq : ∀ (f : ℕ) (a : List α) (s e : ℕ),
    partitionF 0 f a s e = partitionF0 f a s e := by
  intro f
  induction f with
  | zero => intro a s e; rw [partitionF, partitionF0]
  | succ f ih =>
    intro a s e
    rw [partitionF, partitionF0]
    by_cases hse : s < e
    · rw [if_pos hse, if_pos hse, partSplit0_eq, ih, ih]
    · rw [if_neg hse, if_neg hse]

/-! Claims. -/

/-- Claim C1: for every finite sequence of comparable elements and every
method name accepted by the dispatcher sort (any string: the eight named
methods, unknown names falling through to merge sort), called with the
default parameter, the returned sequence is a non-decreasing ordering
(non-increasing when descending is true) of the same multiset of elements
as the input sequence. -/
theorem C1_sort_sorts (data : List α) (method : String) :
    ((sort data method false none).1.Perm data ∧
      (sort data method false none).1.Sorted (· ≤ ·)) ∧
    ((sort data method true none).1.Perm data ∧
      (sort data method true none).1.Sorted (· ≥ ·)) := by
  obtain ⟨hp, hs⟩ := sortCore_correct data method
  constructor
  · rw [sort, if_neg (by decide)]
    exact ⟨hp, hs⟩
  · rw [sort, if_pos rfl]
    have h1 : (Sorting.reverse (sortCore data method none),
        (build_index (sortCore data method none) data).map
          (fun l => Sorting.reverse l)).1 = Sorting.reverse (sortCore data method none) := rfl
    rw [h1, reverse_eq]
    exact ⟨(List.reverse_perm _).trans hp, sorted_ge_reverse hs⟩

/-- Claim C2 (code bug witness): build_index composes the sequential-search
index array with itself (idx[idx]) instead of inverting it.  On the sorted
sequence [1,2,3] of the original [2,1,3] it returns [0,1,2], yet applying
[0,1,2] to the original gives [2,1,3], not the sorted sequence, violating
the claimed invariant and the code's own comment "original[index] -->
sorted"; with duplicates ([1,1]) it returns [0,0], which is not a
permutation of 0..N-1. -/
theorem C2_build_index_failing :
    build_index ([1, 2, 3] : List ℤ) [2, 1, 3] = some [0, 1, 2] ∧
    ([0, 1, 2].map (fun k => ([2, 1, 3] : List ℤ).getD k 0)) = [2, 1, 3] ∧
    ([2, 1, 3] : List ℤ) ≠ [1, 2, 3] ∧
    build_index ([1, 1] : List ℤ) [1, 1] = some [0, 0] := by
  refine ⟨by decide, by decide, by decide, by decide⟩

/-- Claim C3 (counterexample): in the merge step of merge_sort the
comparison is left < right, so when the front elements compare equal the
element of the RIGHT half is copied first: merging the one-element halves
[(5,0)] and [(5,1)] under the first-component order yields [(5,1),(5,0)],
and merge_sort of [(5,0),(5,1)] reverses the equal-keyed pair, so the
relative order of equal-valued elements of the left sub-sequence is not
preserved. -/
theorem C3_merge_tie_counterexample :
    genMerge (fun x y => decide (x.1 < y.1)) [((5 : ℤ), (0 : ℤ))] [((5 : ℤ), (1 : ℤ))] =
      [((5 : ℤ), (1 : ℤ)), ((5 : ℤ), (0 : ℤ))] ∧
    genMergeSort (fun x y => decide (x.1 < y.1))
        [((5 : ℤ), (0 : ℤ)), ((5 : ℤ), (1 : ℤ))] =
      [((5 : ℤ), (1 : ℤ)), ((5 : ℤ), (0 : ℤ))] ∧
    ((5 : ℤ), (0 : ℤ)).1 = ((5 : ℤ), (1 : ℤ)).1 := by
  refine ⟨by decide, by decide, by decide⟩

/-- Claim C3 (amended): in merge_sort's merge step, whenever the front
element of the left half is not strictly smaller than the front element of
the right half — in particular whenever the two are equal — the element
from the RIGHT half is copied first and the right cursor advances. -/
theorem C3_merge_tie_right {β : Type*} (blt : β → β → Bool) (x y : β)
    (ls rs : List β) (h : blt x y = false) :
    genMerge blt (x :: ls) (y :: rs) = y :: genMerge blt (x :: ls) rs := by
  rw [genMerge, genMerge]
  have hlen : (x :: ls).length + (y :: rs).length = ((x :: ls).length + rs.length) + 1 := by
    simp only [List.length_cons]
    omega
  rw [hlen, genMergeF, h]
  simp

/-- Claim C3 witness: the amended tie rule at a concrete tie. -/
theorem C3_witness :
    genMerge (fun x y => decide (x.1 < y.1)) [((5 : ℤ), (0 : ℤ))] [((5 : ℤ), (1 : ℤ))] =
      ((5 : ℤ), (1 : ℤ)) :: genMerge (fun x y => decide (x.1 < y.1))
        [((5 : ℤ), (0 : ℤ))] [] :=
  C3_merge_tie_right _ _ _ _ _ (by decide)

/-- Claim C4 (counterexample): with fact = 1/2, start = 0, end = 3 the code
computes pivot index int(1/2 * 3 + 0) = 1, while round(1/2 * (3-0)) + 0 = 2:
the pivot index is the truncation, not the rounding, of fact*(end-start). -/
theorem C4_pivot_round_counterexample :
    pivotIdx (1/2 : ℚ) 0 3 = 1 ∧
    round ((1/2 : ℚ) * ((3 : ℚ) - (0 : ℚ))) + 0 = 2 := by
  constructor
  · rw [pivotIdx]
    norm_num
  · norm_num [round_eq]

/-- Claim C4 (amended): for every call of partition with start < end and
fact in [0,1], the pivot index equals start + floor(fact * (end - start))
(Python's int() truncation of the nonnegative value fact*(end-start)+start),
it lies within [start, end], and the element at that index is swapped into
position start (the swapped array holds the old a[pivot index] at start and
the old a[start] at the pivot index) before scanning begins. -/
theorem C4_pivot_truncation (a : List α) (s e : ℕ) (fact : ℚ) (hse : s < e)
    (h0 : 0 ≤ fact) (h1 : fact ≤ 1) (he : e < a.length) :
    pivotIdx fact s e = s + (⌊fact * ((e : ℚ) - (s : ℚ))⌋).toNat ∧
    s ≤ pivotIdx fact s e ∧ pivotIdx fact s e ≤ e ∧
    geti (swapL a s (pivotIdx fact s e)) s = geti a (pivotIdx fact s e) ∧
    geti (swapL a s (pivotIdx fact s e)) (pivotIdx fact s e) = geti a s := by
  obtain ⟨hb1, hb2⟩ := pivotIdx_bounds h0 h1 (le_of_lt hse)
  have hfl : (0 : ℤ) ≤ ⌊fact * ((e : ℚ) - (s : ℚ))⌋ := by
    rw [Int.le_floor]
    push_cast
    have hc : (s : ℚ) ≤ (e : ℚ) := by exact_mod_cast le_of_lt hse
    have := mul_nonneg h0 (by linarith : (0 : ℚ) ≤ (e : ℚ) - s)
    linarith
  have hsplit : pivotIdx fact s e = s + (⌊fact * ((e : ℚ) - (s : ℚ))⌋).toNat := by
    rw [pivotIdx]
    have heq : (⌊fact * ((e : ℚ) - (s : ℚ)) + (s : ℚ)⌋) =
        ⌊fact * ((e : ℚ) - (s : ℚ))⌋ + (s : ℤ) := by
      have := Int.floor_add_int (fact * ((e : ℚ) - (s : ℚ))) (s : ℤ)
      push_cast at this ⊢
      exact this
    rw [heq]
    omega
  refine ⟨hsplit, hb1, hb2, ?_, ?_⟩
  · rw [geti_swapL_fst (by omega)]
    split
    · rename_i hc
      rw [← hc]
    · rfl
  · exact geti_swapL_snd (by omega)

/-- Claim C4 witness: the amended statement at start 0, end 3, fact 1/2 on
a concrete sequence. -/
theorem C4_witness :
    pivotIdx (1/2 : ℚ) 0 3 = 0 + (⌊(1/2 : ℚ) * ((3 : ℚ) - (0 : ℚ))⌋).toNat ∧
    0 ≤ pivotIdx (1/2 : ℚ) 0 3 ∧ pivotIdx (1/2 : ℚ) 0 3 ≤ 3 ∧
    geti (swapL ([10, 20, 30, 40] : List ℤ) 0 (pivotIdx (1/2 : ℚ) 0 3)) 0 =
      geti ([10, 20, 30, 40] : List ℤ) (pivotIdx (1/2 : ℚ) 0 3) ∧
    geti (swapL ([10, 20, 30, 40] : List ℤ) 0 (pivotIdx (1/2 : ℚ) 0 3))
        (pivotIdx (1/2 : ℚ) 0 3) = geti ([10, 20, 30, 40] : List ℤ) 0 :=
  C4_pivot_truncation [10, 20, 30, 40] 0 3 (1/2) (by decide) (by norm_num)
    (by norm_num) (by decide)

/-- Claim C5 (counterexample): on the ascending sequence [1,1,1] the value 1
also occurs at index 0, but binary_search returns index 1, so it does not
return the first (smallest) matching index. -/
theorem C5_binary_search_not_first :
    binary_search ([1, 1, 1] : List ℤ) 1 = some 1 ∧
    ([1, 1, 1] : List ℤ).getD 0 0 = 1 := by
  refine ⟨by decide, by decide⟩

/-- Claim C5 (amended): for every sequence sorted in ascending order and
every target, binary_search returns an index whose element equals the
target (not necessarily the first such index) exactly when the target
occurs, and the absent marker None otherwise; in particular on
[17,20,26,31,44,54,55,77,93] searching 44 returns index 4 and searching 45
returns not-found. -/
theorem C5_binary_search_correct :
    (∀ (a : List ℤ) (v : ℤ), a.Sorted (· ≤ ·) →
      ((∀ i, binary_search a v = some i → i < a.length ∧ a.getD i 0 = v) ∧
        (v ∈ a → ∃ i, binary_search a v = some i) ∧
        (v ∉ a → binary_search a v = none))) ∧
    binary_search ([17, 20, 26, 31, 44, 54, 55, 77, 93] : List ℤ) 44 = some 4 ∧
    binary_search ([17, 20, 26, 31, 44, 54, 55, 77, 93] : List ℤ) 45 = none := by
  refine ⟨?_, by decide, by decide⟩
  intro a v hsorted
  refine ⟨fun i hi => ?_, fun hv => binary_search_mem hsorted hv,
    fun hv => binary_search_none hsorted hv⟩
  obtain ⟨h1, h2⟩ := binary_search_found hi
  exact ⟨h1, h2⟩

/-- Claim C5 witness: the amended statement applied on a concrete sorted
sequence containing the target. -/
theorem C5_witness : ∃ i, binary_search ([1, 2] : List ℤ) 2 = some i :=
  (C5_binary_search_correct.1 [1, 2] 2 (by decide)).2.1 (by decide)

/-- Claim C6 (counterexample): with N = 9 and gap = 3 the sub-list phase of
shell_sort starts its insertion sorts at the multiples of n_lists = 3
(positions 0, 3, 6, 9), which all lie in residue class 0 modulo the gap, so
after the phase residue class 1 (positions 1, 4, 7) of
[9,8,7,6,5,4,3,2,1] still holds [8,5,2], which is not sorted: the phase
does not sort each interleaved residue-class sub-sequence. -/
theorem C6_shell_phase_counterexample :
    [geti (shellPhase ([9, 8, 7, 6, 5, 4, 3, 2, 1] : List ℤ) 3) 1,
      geti (shellPhase ([9, 8, 7, 6, 5, 4, 3, 2, 1] : List ℤ) 3) 4,
      geti (shellPhase ([9, 8, 7, 6, 5, 4, 3, 2, 1] : List ℤ) 3) 7] =
      ([8, 5, 2] : List ℤ) ∧
    ¬ ([8, 5, 2] : List ℤ).Sorted (· ≤ ·) := by
  refine ⟨by decide, by decide⟩

/-- Claim C6 (amended): for every sequence and every positive gap,
shell_sort runs len(a)//gap + 1 insertion-sort passes with that gap whose
starting offsets are the multiples of len(a)//gap (so the pre-sorted
sub-sequences are not, in general, the residue classes modulo the gap),
followed by one final insertion-sort pass with gap 1; the final pass leaves
the sequence a sorted permutation of the input, and with gap = 1 the final
state equals that of plain insertion sort. -/
theorem C6_shell_sort_amended (a : List α) (g : ℕ) (hg : 0 < g) :
    shell_sort a g = insertion_sort (shellPhase a g) 0 1 ∧
    (shell_sort a g).Perm a ∧ (shell_sort a g).Sorted (· ≤ ·) ∧
    shell_sort a 1 = insertion_sort a 0 1 :=
  ⟨rfl, shell_sort_perm a g hg, shell_sort_sorted a g, shell_sort_one a⟩

/-- Claim C6 witness: the amended statement on a concrete sequence with
gap 2. -/
theorem C6_witness :
    shell_sort ([3, 1, 2] : List ℤ) 2 = insertion_sort (shellPhase ([3, 1, 2] : List ℤ) 2) 0 1 ∧
    (shell_sort ([3, 1, 2] : List ℤ) 2).Perm [3, 1, 2] ∧
    (shell_sort ([3, 1, 2] : List ℤ) 2).Sorted (· ≤ ·) ∧
    shell_sort ([3, 1, 2] : List ℤ) 1 = insertion_sort ([3, 1, 2] : List ℤ) 0 1 :=
  C6_shell_sort_amended [3, 1, 2] 2 (by decide)

/-- Claim C7 (counterexample): when a value of the original sequence does
not occur in the sorted sequence, build_index does not record a sentinel in
the index array: storing the returned None into the integer index array is
a fatal error, modelled as the overall result none. -/
theorem C7_build_index_error_counterexample :
    build_index ([1, 2] : List ℤ) [1, 3] = none := by decide

/-- Claim C7 (amended): for every pair of equal-length sequences where some
element of the original does not occur in the sorted sequence, build_index
fails with a fatal error (sequential_search returns the absent marker None,
which cannot be stored into the integer index array), rather than recording
a sentinel: callers must guarantee equal multisets. -/
theorem C7_build_index_fails (s o : List α) (hlen : s.length = o.length)
    (h : ∃ v ∈ o, v ∉ s) : build_index s o = none := by
  obtain ⟨v, hvo, hvs⟩ := h
  obtain ⟨t, ht, hval⟩ := List.getElem_of_mem hvo
  rw [build_index, biGo_none s.length s o 0 ⟨t, by omega, v, ?_, hvs⟩]
  · rfl
  · rw [Nat.zero_add, List.getElem?_eq_getElem ht, hval]

/-- Claim C7 witness: the amended statement at a concrete pair. -/
theorem C7_witness : build_index ([1, 2] : List ℤ) [2, 5] = none :=
  C7_build_index_fails [1, 2] [2, 5] (by decide) ⟨5, by decide, by decide⟩

/-- Claim C8: sorting [54,26,93,17,77,31,44,55,20] with any method name
ascending yields [17,20,26,31,44,54,55,77,93] with index array
[3,8,1,5,6,0,7,4,2], and descending yields the reverse of both. -/
theorem C8_end_to_end (m : String) :
    sort ([54, 26, 93, 17, 77, 31, 44, 55, 20] : List ℤ) m false none =
      ([17, 20, 26, 31, 44, 54, 55, 77, 93], some [3, 8, 1, 5, 6, 0, 7, 4, 2]) ∧
    sort ([54, 26, 93, 17, 77, 31, 44, 55, 20] : List ℤ) m true none =
      ([93, 77, 55, 54, 44, 31, 26, 20, 17], some [2, 4, 7, 0, 6, 5, 1, 8, 3]) := by
  by_cases h1 : m = "bubble"
  · subst h1
    exact ⟨by decide, by decide⟩
  · by_cases h2 : m = "short_bubble"
    · subst h2
      exact ⟨by decide, by decide⟩
    · by_cases h3 : m = "selection"
      · subst h3
        exact ⟨by decide, by decide⟩
      · by_cases h4 : m = "insertion"
        · subst h4
          exact ⟨by decide, by decide⟩
        · by_cases h5 : m = "shell"
          · subst h5
            exact ⟨by decide, by decide⟩
          · by_cases h6 : m = "quick"
            · subst h6
              have hq : sortCore ([54, 26, 93, 17, 77, 31, 44, 55, 20] : List ℤ)
                  "quick" none = [17, 20, 26, 31, 44, 54, 55, 77, 93] := by
                rw [sortCore, if_neg (by decide), if_neg (by decide),
                  if_neg (by decide), if_neg (by decide), if_neg (by decide),
                  if_pos rfl]
                show quick_sort _ 0 = _
                rw [quick_sort, partition, partitionF0_eq]
                decide
              constructor
              · rw [sort, if_neg (by decide), hq]
                decide
              · rw [sort, if_pos rfl, hq]
                decide
            · by_cases h7 : m = "heap"
              · subst h7
                exact ⟨by decide, by decide⟩
              · have hcore : sortCore ([54, 26, 93, 17, 77, 31, 44, 55, 20] : List ℤ)
                    m none = merge_sort [54, 26, 93, 17, 77, 31, 44, 55, 20] := by
                  rw [sortCore, if_neg h1, if_neg h2, if_neg h3, if_neg h4,
                    if_neg h5, if_neg h6, if_neg h7]
                constructor
                · rw [sort, if_neg (by decide), hcore]
                  decide
                · rw [sort, if_pos rfl, hcore]
                  decide

/-- Claim C9: short_bubble_sort and bubble_sort leave every sequence in the
same final state: both produce the unique sorted arrangement of the input's
elements, so the early-exit optimization never changes the result. -/
theorem C9_short_bubble_eq_bubble (a : List α) :
    short_bubble_sort a = bubble_sort a :=
  List.eq_of_perm_of_sorted
    ((short_bubble_sort_perm a).trans (bubble_sort_perm a).symm)
    (short_bubble_sort_sorted a) (bubble_sort_sorted a)

/-- Claim C10: applying reverse twice restores the original sequence, and a
single application places the element originally at index i at index
N-1-i for every i. -/
theorem C10_reverse_involution (a : List α) :
    Sorting.reverse (Sorting.reverse a) = a ∧
    ∀ i, i < a.length →
      geti (Sorting.reverse a) (a.length - 1 - i) = geti a i := by
  constructor
  · rw [reverse_eq, reverse_eq, List.reverse_reverse]
  · intro i hi
    rw [reverse_eq]
    rw [geti_eq_getElem (l := a.reverse) (by simp; omega), geti_eq_getElem hi]
    rw [List.getElem_reverse]
    congr 1
    omega

/-- Claim C10 witness: the involution and the index mapping at a concrete
sequence and index. -/
theorem C10_witness :
    Sorting.reverse (Sorting.reverse ([3, 1, 2] : List ℤ)) = [3, 1, 2] ∧
    geti (Sorting.reverse ([3, 1, 2] : List ℤ)) 2 = geti ([3, 1, 2] : List ℤ) 0 := by
  refine ⟨(C10_reverse_involution [3, 1, 2]).1, ?_⟩
  have h := (C10_reverse_involution ([3, 1, 2] : List ℤ)).2 0 (by decide)
  simpa using h

end Sorting
